import Mathlib

/-!
Verification development for the artifact-materialization and
context-propagation layer of the workflow-inference-compiler
(src/sophios/input_output.py).

The Python module is shallowly embedded below:

* Python dicts are association lists with Python assignment semantics
  (updating an existing key in place, appending a new key at the end).
* JSON documents are the inductive type JVal; YAML object graphs (which can
  contain shared substructure) are heaps of YNode cells addressed by Nat
  references, and the PyYAML dumper is a token emitter over such a heap,
  parameterized by the ignore_aliases predicate that NoAliasDumper overrides.
* The filesystem is a map from path strings to file contents; written files
  are collected as (path components, content) pairs.
* Paths are POSIX strings; Path.absolute() and Path.parent are modeled
  without symlink/existence/case normalization, exactly as in pathlib.
* sys.exit() raises SystemExit(None), which the interpreter maps to process
  exit status 0; it is modeled as the GCResult.exited 0 outcome.
* Recursions over the rose tree of compiled workflows and over the object
  graph use an explicit fuel argument so that they are executable and
  kernel-reducible; every entry point passes fuel that exceeds the
  structure's depth, so the fuel never runs out on the inputs considered.
-/

/-! ## Python dict semantics over association lists -/

/-- Lookup of a key in a Python dict modeled as an association list. -/
def lookupKey {α : Type} : List (String × α) → String → Option α
  | [], _ => none
  | (k0, v0) :: rest, k => if k0 = k then some v0 else lookupKey rest k

/-- Assignment d[k] = v on a Python dict: an existing key is updated in
place (its position is preserved), a new key is appended at the end. -/
def setKey {α : Type} : List (String × α) → String → α → List (String × α)
  | [], k, v => [(k, v)]
  | (k0, v0) :: rest, k, v =>
    if k0 = k then (k, v) :: rest else (k0, v0) :: setKey rest k v

/-- Keys of a Python dict, in insertion order. -/
def keysOf {α : Type} (m : List (String × α)) : List String := m.map (·.1)

/-- Python dict merge as in the expression with two double-star unpackings:
start from d, then assign every entry of e in order. -/
def dictUpdate {α : Type} (d e : List (String × α)) : List (String × α) :=
  e.foldl (fun acc kv => setKey acc kv.1 kv.2) d

/-! ## JSON values -/

/-- JSON values as loaded by json.load (floats are not needed by this
module's configs and are omitted). -/
inductive JVal where
  | str (s : String)
  | int (n : Int)
  | bool (b : Bool)
  | null
  | arr (items : List JVal)
  | obj (entries : List (String × JVal))

/-- Python exceptions that the embedded code can raise. -/
inductive PyErr where
  | keyError (k : String)
  | typeError
  | fileNotFound
deriving DecidableEq

/-! ## POSIX path strings -/

/-- Test whether a POSIX path string is absolute (begins with a slash);
this is exactly PurePosixPath.is_absolute. -/
def isAbsStr (p : String) : Bool :=
  decide (p.data.head? = some '/')

/-- Conversion of a path to absolute form as done by Path.absolute():
prepend the current working directory to a relative path, with no other
normalization (symlinks, existence and case are untouched).  The empty
path and the single dot both denote the current directory in pathlib. -/
def pyAbs (cwd p : String) : String :=
  if isAbsStr p then p
  else if p = "" ∨ p = "." then cwd
  else cwd ++ "/" ++ p

/-- Python str.join with the given separator. -/
def pyJoin (sep : String) : List String → String
  | [] => ""
  | [x] => x
  | x :: y :: xs => x ++ sep ++ pyJoin sep (y :: xs)

/-- Split a character list at every slash (the character-level rendering
of str.split on a one-character separator). -/
def splitSlash : List Char → List Char → List String
  | [], acc => [String.mk acc.reverse]
  | '/' :: rest, acc => String.mk acc.reverse :: splitSlash rest []
  | c :: rest, acc => splitSlash rest (c :: acc)

/-- Components of a path as produced by pathlib (empty components and
single dots are dropped). -/
def pathParts (p : String) : List String :=
  (splitSlash p.data []).filter (fun s => s ≠ "" ∧ s ≠ ".")

/-- Path.parent of pathlib: drop the last component, without resolving
dot-dot components or touching the filesystem. -/
def pyParent (p : String) : String :=
  if isAbsStr p then
    match pathParts p with
    | [] => "/"
    | [_] => "/"
    | parts => "/" ++ pyJoin "/" parts.dropLast
  else
    match pathParts p with
    | [] => "."
    | [_] => "."
    | parts => pyJoin "/" parts.dropLast

/-! ## The PyYAML dumper with and without aliasing

NoAliasDumper is the class defined in input_output.py: it overrides
ignore_aliases to return True for every object.  The serializer itself is
external library code (PyYAML); it is modeled from the spec here: when
ignore_aliases holds for an object the object is re-serialized in full at
every occurrence, otherwise an object visited a second time is emitted as
an alias marker referring to the anchor placed at its first occurrence.
This is exactly the structural-sharing mechanism the spec forbids in the
produced files. -/

/-- Scalar YAML values. -/
inductive SVal where
  | s (v : String)
  | i (n : Int)
  | b (v : Bool)
  | null
deriving DecidableEq

/-- A cell of the in-memory object graph handed to yaml.dump.  Sequence
and mapping cells hold references (heap indices) to their children, so a
value reachable from two different points is represented once with two
references to it, as in CPython object identity. -/
inductive YNode where
  | scalar (v : SVal)
  | seq (items : List Nat)
  | ymap (entries : List (String × Nat))
deriving DecidableEq

/-- Serialized output tokens.  anchorT and aliasT are the two
structural-sharing markers (YAML anchors and aliases). -/
inductive YTok where
  | scalarT (v : SVal)
  | anchorT (r : Nat)
  | aliasT (r : Nat)
  | seqStart
  | seqEnd
  | mapStart
  | mapEnd
  | keyT (k : String)
deriving DecidableEq

/-- Per the class definition in input_output.py, NoAliasDumper's
ignore_aliases returns True for every data object. -/
def NoAliasDumper_ignore_aliases (_data : YNode) : Bool := true

/-- Serialize each element of a sequence in order, threading the set of
already-visited (anchored) references. -/
def serSeq (f : Nat → List Nat → List YTok × List Nat) :
    List Nat → List Nat → List YTok × List Nat
  | [], vis => ([], vis)
  | r :: rs, vis =>
    let (t, v) := f r vis
    let (t2, v2) := serSeq f rs v
    (t ++ t2, v2)

/-- Serialize the entries of a mapping in order, emitting each key before
its serialized value. -/
def serMap (f : Nat → List Nat → List YTok × List Nat) :
    List (String × Nat) → List Nat → List YTok × List Nat
  | [], vis => ([], vis)
  | (k, r) :: rs, vis =>
    let (t, v) := f r vis
    let (t2, v2) := serMap f rs v
    (YTok.keyT k :: (t ++ t2), v2)

/-- Modelled from the spec: the PyYAML serializer (library code, not under
src/).  ign is the dumper's ignore_aliases predicate.  When ign rejects an
object that was already visited, an alias marker is emitted instead of the
object; when ign rejects a fresh object, an anchor marker is placed before
its body and the object is recorded as visited; when ign accepts an object
(as NoAliasDumper always does) the object is serialized in full with no
marker and no recording.  fuel bounds the recursion depth; any fuel larger
than the length of the longest reference chain yields the full output. -/
def serNodeF (ign : YNode → Bool) (heap : List YNode) :
    Nat → Nat → List Nat → List YTok × List Nat
  | 0, _, vis => ([], vis)
  | fuel+1, r, vis =>
    match heap[r]? with
    | none => ([], vis)
    | some n =>
      if !(ign n) && vis.contains r then
        ([.aliasT r], vis)
      else
        let pre : List YTok := if !(ign n) then [.anchorT r] else []
        let vis' : List Nat := if !(ign n) then r :: vis else vis
        match n with
        | .scalar v => (pre ++ [.scalarT v], vis')
        | .seq items =>
          let (body, v2) := serSeq (serNodeF ign heap fuel) items vis'
          (pre ++ (YTok.seqStart :: body ++ [YTok.seqEnd]), v2)
        | .ymap entries =>
          let (body, v2) := serMap (serNodeF ign heap fuel) entries vis'
          (pre ++ (YTok.mapStart :: body ++ [YTok.mapEnd]), v2)

/-- Tokens of yaml.dump of the object at reference r.  The fuel exceeds
the heap size, hence the depth of any chain of distinct references. -/
def dumpDocTokens (heap : List YNode) (r : Nat) : List YTok :=
  (serNodeF NoAliasDumper_ignore_aliases heap (heap.length + 1) r []).1

/-- Tokens of yaml.dump of a freshly built top-level dict whose values are
references into the heap (the merged inputs dict of the writer). -/
def dumpTopMapTokens (heap : List YNode) (entries : List (String × Nat)) : List YTok :=
  YTok.mapStart ::
    (serMap (serNodeF NoAliasDumper_ignore_aliases heap (heap.length + 1)) entries []).1
    ++ [YTok.mapEnd]

/-- Predicate over emitted tokens: no structural-sharing marker (neither a
YAML anchor nor a YAML alias) occurs. -/
def noMarks (toks : List YTok) : Bool :=
  toks.all (fun t =>
    match t with
    | .anchorT _ => false
    | .aliasT _ => false
    | _ => true)

/-! ## The tree writer -/

/-- NodeData as consumed by the writer: the namespace path, the stem name,
the compiled CWL document (a reference into the shared object heap) and
the default-inputs dict (mapping input names to references). -/
structure NodeData where
  namespaces : List String
  name : String
  compiled_cwl : Nat
  workflow_inputs_file : List (String × Nat)

/-- RoseTree of compiled subworkflows, as in wic_types. -/
inductive RoseTree where
  | node (data : NodeData) (sub_trees : List RoseTree)

mutual

/-- Fuel bound used to drive the writer's recursion: one unit per tree
node, so it strictly exceeds the depth of the tree. -/
def treeFuel : RoseTree → Nat
  | .node _ subs => 1 + forestFuel subs

def forestFuel : List RoseTree → Nat
  | [] => 0
  | t :: ts => treeFuel t + forestFuel ts

end

/-- Modelled from the spec: the auto_gen_header provenance banner is
imported from the package root, which is not under src/; its exact text is
irrelevant to every claim. -/
def auto_gen_header : String := "# This file was autogenerated, do not edit.\n"

/-- Interpreter-directive line written at the top of every compiled CWL
file. -/
def shebang_line : String := "#!/usr/bin/env cwl-runner\n"

/-- Flat-naming output filename of the compiled-document file: the
namespace path and the stem (with extension) joined by the separator of
three underscores. -/
def flat_filename_cwl (namespaces : List String) (yaml_stem : String) : String :=
  pyJoin "___" (namespaces ++ [yaml_stem ++ ".cwl"])

/-- Flat-naming output filename of the inputs file. -/
def flat_filename_yml (namespaces : List String) (yaml_stem : String) : String :=
  pyJoin "___" (namespaces ++ [yaml_stem ++ "_inputs.yml"])

/-- Content of one written file: the fixed header lines followed by the
serialized YAML body. -/
structure FileContent where
  header : List String
  body : List YTok
deriving DecidableEq

/-- Files written for a single node: the compiled CWL file (shebang line,
banner, serialized compiled document) and the inputs file (banner,
serialized merge of the node's default inputs with the caller-supplied
inputs, the latter overriding). -/
def nodeWrites (heap : List YNode) (relative_run_path : Bool)
    (inputs : List (String × Nat)) (d : NodeData) (path : List String) :
    List (List String × FileContent) :=
  let yaml_stem := d.name
  let yaml_inputs := dictUpdate d.workflow_inputs_file inputs
  let filename_cwl :=
    if relative_run_path then yaml_stem ++ ".cwl"
    else flat_filename_cwl d.namespaces yaml_stem
  let filename_yml :=
    if relative_run_path then yaml_stem ++ "_inputs.yml"
    else flat_filename_yml d.namespaces yaml_stem
  [(path ++ [filename_cwl],
      ⟨[shebang_line, auto_gen_header], dumpDocTokens heap d.compiled_cwl⟩),
   (path ++ [filename_yml],
      ⟨[auto_gen_header], dumpTopMapTokens heap yaml_inputs⟩)]

/-- Last element of a subtree's namespace path, as in the Python
expression indexing namespaces at -1.  For a well-formed compiled tree a
subtree's namespace path is never empty (it names the subtree itself);
Python would raise IndexError on an empty one. -/
def lastNamespace (t : RoseTree) : String :=
  match t with
  | .node d _ => d.namespaces.getLastD ""

/-- Recursive body of the writer (the underscore-prefixed helper in the
source).  Returns the list of (path components, file content) writes, in
the order Python performs them: the node's own two files first, then each
subtree in order.  Under relative_run_path each subtree is written into a
subdirectory named by the last element of its namespace path; otherwise
all nodes share the output directory.  inputs is passed unchanged to
every recursive call. -/
def writeAuxF (heap : List YNode) (relative_run_path : Bool)
    (inputs : List (String × Nat)) :
    Nat → RoseTree → List String → List (List String × FileContent)
  | 0, _, _ => []
  | fuel+1, .node d subs, path =>
    nodeWrites heap relative_run_path inputs d path ++
      (subs.map (fun sub =>
        let subpath :=
          if relative_run_path then path ++ [lastNamespace sub] else path
        writeAuxF heap relative_run_path inputs fuel sub subpath)).flatten

/-- The recursive tree writer (the underscore-prefixed function in the
source): writes the compiled CWL files and inputs files of the whole rose
tree.  inputs is the supplementary-inputs dict. -/
def _write_to_disk (heap : List YNode) (rose_tree : RoseTree)
    (path : List String) (relative_run_path : Bool)
    (inputs : List (String × Nat)) : List (List String × FileContent) :=
  writeAuxF heap relative_run_path inputs (treeFuel rose_tree) rose_tree path

/-- Test whether the second character list starts with the first. -/
def startsWithChars : List Char → List Char → Bool
  | [], _ => true
  | _ :: _, [] => false
  | c :: cs, d :: ds => c = d && startsWithChars cs ds

/-- Test whether the first character list occurs contiguously inside the
second (the rendering of the Python substring test with the in operator). -/
def containsChars (sub : List Char) : List Char → Bool
  | [] => startsWithChars sub []
  | l@(_ :: rest) => startsWithChars sub l || containsChars sub rest

/-- One iteration of the wrapper's relative-location rewrite: evaluate
the Python condition testing location membership in val and, for a
mapping value with a relative location string, rebind that entry to the
string prefixed with the parent directory marker.  The membership test
follows Python exactly: for a mapping it tests the keys; for a string it
is a substring test, and a hit then makes the subscript val at the key
location raise TypeError (string indices must be integers); for a list it
tests the elements, and a hit likewise makes the subscript raise; for any
non-iterable value (int, bool, None) the membership test itself raises
TypeError; a non-string location value makes Path() raise. -/
def rewriteLocVal (heap : List YNode) (r : Nat) : Except PyErr (List YNode) :=
  match heap[r]? with
  | none => .error .typeError
  | some (.scalar (.s s)) =>
    if containsChars ("location").data s.data then .error .typeError else .ok heap
  | some (.scalar _) => .error .typeError
  | some (.seq items) =>
    if items.any (fun ri => decide (heap[ri]? = some (.scalar (.s "location")))) then
      .error .typeError
    else .ok heap
  | some (.ymap entries) =>
    match lookupKey entries "location" with
    | none => .ok heap
    | some rloc =>
      match heap[rloc]? with
      | some (.scalar (.s s)) =>
        if isAbsStr s then .ok heap
        else
          .ok ((heap ++ [YNode.scalar (SVal.s ("../" ++ s))]).set r
            (YNode.ymap (setKey entries "location" heap.length)))
      | _ => .error .typeError

/-- The wrapper's loop over the items of the parsed supplementary-inputs
document, threading the mutated object heap and propagating the first
exception. -/
def rewriteLocations (heap : List YNode) :
    List (String × Nat) → Except PyErr (List YNode)
  | [] => .ok heap
  | (_, r) :: rest =>
    match rewriteLocVal heap r with
    | .ok heapA => rewriteLocations heapA rest
    | .error e => .error e

/-- The public tree writer: takes the parsed contents of the optional
supplementary-inputs file (yaml.safe_load is library I/O; an absent file
is the empty dict), runs the relative-location rewrite loop over its
values, then hands the possibly mutated heap and the inputs dict to the
recursive writer; an exception raised by the loop propagates before any
file is written. -/
def write_to_disk (heap : List YNode) (rose_tree : RoseTree)
    (path : List String) (relative_run_path : Bool)
    (inputs : List (String × Nat)) :
    Except PyErr (List (List String × FileContent)) :=
  match rewriteLocations heap inputs with
  | .ok heapA => .ok (_write_to_disk heapA rose_tree path relative_run_path inputs)
  | .error e => .error e

/-! ## The config store -/

/-- Filesystem model used by the config store: a map from path strings to
parsed JSON contents (json.dump followed by json.load round-trips the
values used here exactly). -/
abbrev FS := List (String × JVal)

/-- Absolutize every element of one category's path list; a non-string
element makes Path() raise (collapsed to typeError). -/
def absStrList (cwd : String) : List JVal → Except PyErr (List JVal)
  | [] => .ok []
  | .str s :: rest =>
    match absStrList cwd rest with
    | .ok rs => .ok (JVal.str (pyAbs cwd s) :: rs)
    | .error e => .error e
  | _ :: _ => .error .typeError

/-- Absolutize every namespace entry of a sub-config object.  Values of a
shape other than a list of strings are collapsed to typeError; the claims
only exercise conforming shapes. -/
def absEntryList (cwd : String) : List (String × JVal) → Except PyErr (List (String × JVal))
  | [] => .ok []
  | (k, .arr xs) :: rest =>
    match absStrList cwd xs with
    | .ok ys =>
      match absEntryList cwd rest with
      | .ok rs => .ok ((k, JVal.arr ys) :: rs)
      | .error e => .error e
    | .error e => .error e
  | (_, _) :: _ => .error .typeError

/-- get_absolute_paths on a parsed JSON sub-config: deep-copy, then map
every path of every namespace through Path.absolute().  (The pure
functional rendering; the mutation-level rendering with an explicit heap
is get_absolute_paths_state below, and the two agree.) -/
def get_absolute_paths (cwd : String) : JVal → Except PyErr JVal
  | .obj es =>
    match absEntryList cwd es with
    | .ok es' => .ok (JVal.obj es')
    | .error e => .error e
  | _ => .error .typeError

/-- Process one recognized tag: subscripting a missing key raises
KeyError, then the absolutized sub-config is assigned back. -/
def procTag (cwd : String) (es : List (String × JVal)) (tag : String) :
    Except PyErr (List (String × JVal)) :=
  match lookupKey es tag with
  | none => .error (.keyError tag)
  | some v =>
    match get_absolute_paths cwd v with
    | .ok v' => .ok (setKey es tag v')
    | .error e => .error e

/-- Body of read_config_from_disk after json.load: the loop over
conf_tags, which is the two-element list of search_paths_cwl and
search_paths_wic, unrolled.  Subscripting a non-object raises (collapsed
to typeError). -/
def process_config (cwd : String) (config : JVal) : Except PyErr JVal :=
  match config with
  | .obj es =>
    match procTag cwd es "search_paths_cwl" with
    | .ok e1 =>
      match procTag cwd e1 "search_paths_wic" with
      | .ok e2 => .ok (JVal.obj e2)
      | .error e => .error e
    | .error e => .error e
  | _ => .error .typeError

/-- read_config_from_disk: json.load the file, then absolutize the two
recognized path categories. -/
def read_config_from_disk (cwd : String) (fs : FS) (config_file : String) :
    Except PyErr JVal :=
  match lookupKey fs config_file with
  | none => .error .fileNotFound
  | some j => process_config cwd j

/-- get_default_config processes the bundled config.json that sits next to
the module.  Modelled from the spec: that data file is not under src/, so
its parsed contents are taken as the parameter bundled. -/
def get_default_config (cwd : String) (bundled : JVal) : Except PyErr JVal :=
  process_config cwd bundled

/-- write_config_to_disk: create parent directories (invisible in the
path-to-content map) and store the JSON object at the path. -/
def write_config_to_disk (fs : FS) (config : JVal) (config_file : String) : FS :=
  setKey fs config_file config

/-- Outcome of get_config: a returned config object, process termination
through sys.exit (SystemExit with value None gives process exit status 0),
or an uncaught exception. -/
inductive GCResult where
  | ok (config : JVal)
  | exited (status : Nat)
  | raised (e : PyErr)

/-- get_config.  Returns the outcome together with the final filesystem
and the lines printed to stdout. -/
def get_config (cwd : String) (bundled : JVal) (fs : FS)
    (config_file default_config_file : String) : GCResult × FS × List String :=
  if (lookupKey fs config_file).isSome = false then
    if config_file = default_config_file then
      match get_default_config cwd bundled with
      | .ok global_config =>
        let fs' := write_config_to_disk fs global_config default_config_file
        (.ok global_config, fs',
          ["default config file : " ++ default_config_file ++ " generated"])
      | .error e => (.raised e, fs, [])
    else
      (.exited 0, fs,
        ["Error user specified config file " ++ config_file ++ " does not exist"])
  else
    match read_config_from_disk cwd fs config_file with
    | .ok c => (.ok c, fs, [])
    | .error e => (.raised e, fs, [])

/-- Predicate over a sub-config JSON value: it is an object all of whose
namespace entries are lists of absolute path strings. -/
def catAllAbs (v : JVal) : Bool :=
  match v with
  | .obj es =>
    es.all (fun p =>
      match p.2 with
      | .arr xs =>
        xs.all (fun x =>
          match x with
          | .str s => isAbsStr s
          | _ => false)
      | _ => false)
  | _ => false

/-! ## The context injector -/

/-- Command-line collaborators consumed by the injector. -/
structure CLArgs where
  cachedir : String
  yaml : String
  homedir : String

/-- Fixed list of synthetic context argument names, in source order. -/
def arg_keys_ : List String := ["root_workflow_yml_path", "cachedir_path", "homedir"]

/-- Ledger key synthesized for one injected argument: the step name and
the argument name joined by the fixed three-underscore separator. -/
def ledger_key (step_name_i arg_key_ : String) : String :=
  step_name_i ++ "___" ++ arg_key_

/-- Key set the injector adds to the ledger at one node. -/
def injected_ledger_keys (step_name_i : String) : List String :=
  arg_keys_.map (ledger_key step_name_i)

/-- write_absolute_yaml_tags.  Mutates the node's input dict and the
edge-call ledger; the final values of both are returned as a pair.  The
three context bindings are stored wrapped in the wic_inline_input marker
object; each ledger entry maps the synthesized key to the pair of the
extended namespace path and the plain argument name. -/
def write_absolute_yaml_tags (cwd : String) (args : CLArgs)
    (in_dict_in : List (String × JVal)) (namespaces : List String)
    (step_name_i : String)
    (explicit_edge_calls_copy : List (String × (List String × String))) :
    List (String × JVal) × List (String × (List String × String)) :=
  let cachedir_path := pyAbs cwd args.cachedir
  let d1 := setKey in_dict_in "root_workflow_yml_path"
    (.obj [("wic_inline_input", .str (pyAbs cwd (pyParent args.yaml)))])
  let d2 := setKey d1 "cachedir_path"
    (.obj [("wic_inline_input", .str cachedir_path)])
  let d3 := setKey d2 "homedir"
    (.obj [("wic_inline_input", .str args.homedir)])
  let ledger := arg_keys_.foldl
    (fun acc arg_key_ =>
      setKey acc (ledger_key step_name_i arg_key_) (namespaces ++ [step_name_i], arg_key_))
    explicit_edge_calls_copy
  (d3, ledger)

/-! ## Mutation-level model of get_absolute_paths

For the frame/purity claim the Python-level mutation is made explicit: the
store holds list objects and dict objects addressed by indices, deepcopy
allocates fresh cells, and the loop rebinds entries of the copied dict
only.  The argument dict and every cell reachable from it are untouched. -/

/-- Store of Python objects: dict cells (association lists of keys and
list references) and list-of-string cells, addressed by their index. -/
structure PState where
  dicts : List (List (String × Nat))
  lists : List (List String)

/-- Allocate a fresh list object. -/
def allocList (st : PState) (content : List String) : PState × Nat :=
  ({ st with lists := st.lists ++ [content] }, st.lists.length)

/-- Allocate a fresh dict object. -/
def allocDict (st : PState) (entries : List (String × Nat)) : PState × Nat :=
  ({ st with dicts := st.dicts ++ [entries] }, st.dicts.length)

/-- Deep-copy the value lists of a dict's entries, giving entries that
point at the fresh copies. -/
def deepCopyEntries (st : PState) : List (String × Nat) → PState × List (String × Nat)
  | [] => (st, [])
  | (k, r) :: rest =>
    let (st1, r') := allocList st (st.lists.getD r [])
    let (st2, rest') := deepCopyEntries st1 rest
    (st2, (k, r') :: rest')

/-- copy.deepcopy of a dict-of-lists object. -/
def deepcopyDict (st : PState) (d : Nat) : PState × Nat :=
  let (st1, entries') := deepCopyEntries st (st.dicts.getD d [])
  allocDict st1 entries'

/-- One iteration of the absolutization loop: read the list bound to the
key ns in the copied dict, build the new absolutized list object, and
rebind the dict entry to it. -/
def absLoopStep (cwd : String) (d' : Nat) (s : PState) (ns : String) : PState :=
  let entries := s.dicts.getD d' []
  let r := (lookupKey entries ns).getD 0
  let abs_paths := (s.lists.getD r []).map (pyAbs cwd)
  let (sA, rN) := allocList s abs_paths
  { sA with dicts := sA.dicts.set d' (setKey (sA.dicts.getD d' []) ns rN) }

/-- get_absolute_paths with mutation made explicit: deep-copy the
argument, then for each namespace key build the new absolutized list and
rebind the copied dict's entry to it.  Returns the final store and the
reference of the returned dict. -/
def get_absolute_paths_state (cwd : String) (st : PState) (d : Nat) : PState × Nat :=
  let (st1, d') := deepcopyDict st d
  let ks := keysOf (st1.dicts.getD d' [])
  (ks.foldl (absLoopStep cwd d') st1, d')

/-! ## Sub-config components under flat naming: separator analysis -/

/-- Test whether a character list begins with three underscores. -/
def startsRun3 : List Char → Bool
  | '_' :: '_' :: '_' :: _ => true
  | _ => false

/-- Test whether a character list contains three consecutive underscores
anywhere. -/
def hasRun3 : List Char → Bool
  | [] => false
  | c :: rest => startsRun3 (c :: rest) || hasRun3 rest

/-- The three-underscore separator, as characters. -/
def sep3 : List Char := ['_', '_', '_']

/-- Character-level rendering of str.join with the three-underscore
separator. -/
def joinSep : List (List Char) → List Char
  | [] => []
  | [x] => x
  | x :: y :: xs => x ++ sep3 ++ joinSep (y :: xs)

/-- Well-behaved namespace component: it has no run of three consecutive
underscores and does not end in an underscore.  Under this condition the
flat-naming join is injective; outside it the separator is ambiguous. -/
def okComp (x : String) : Prop :=
  hasRun3 x.data = false ∧ x.data.getLast? ≠ some '_'

/-! ## Lemmas about Python dict operations -/

theorem lookupKey_setKey {α : Type} (m : List (String × α)) (k k' : String) (v : α) :
    lookupKey (setKey m k v) k' = if k = k' then some v else lookupKey m k' := by
  induction m with
  | nil => simp [setKey, lookupKey]
  | cons kv rest ih =>
    obtain ⟨k0, v0⟩ := kv
    by_cases h0 : k0 = k
    · subst h0
      by_cases h1 : k0 = k' <;> simp [setKey, lookupKey, h1]
    · simp only [setKey, if_neg h0, lookupKey]
      by_cases h1 : k0 = k'
      · subst h1
        have : ¬ (k = k0) := fun h => h0 h.symm
        simp [this, lookupKey]
      · simp [h1, ih]

theorem lookupKey_eq_none_of_not_mem {α : Type} (m : List (String × α)) (k : String)
    (h : k ∉ keysOf m) : lookupKey m k = none := by
  induction m with
  | nil => rfl
  | cons kv rest ih =>
    simp only [keysOf, List.map_cons, List.mem_cons, not_or] at h
    simp only [lookupKey]
    rw [if_neg (fun he => h.1 he.symm)]
    exact ih (by simpa [keysOf] using h.2)

theorem setKey_of_not_mem {α : Type} (m : List (String × α)) (k : String) (v : α)
    (h : k ∉ keysOf m) : setKey m k v = m ++ [(k, v)] := by
  induction m with
  | nil => rfl
  | cons kv rest ih =>
    simp only [keysOf, List.map_cons, List.mem_cons, not_or] at h
    simp only [setKey]
    rw [if_neg (fun he => h.1 he.symm)]
    simp [ih (by simpa [keysOf] using h.2)]

theorem setKey_self {α : Type} (m : List (String × α)) (k : String) (v : α)
    (h : lookupKey m k = some v) : setKey m k v = m := by
  induction m with
  | nil => simp [lookupKey] at h
  | cons kv rest ih =>
    obtain ⟨k0, v0⟩ := kv
    by_cases h0 : k0 = k
    · subst h0
      have hv : v0 = v := by simpa [lookupKey] using h
      subst hv
      simp [setKey]
    · simp only [lookupKey, if_neg h0] at h
      simp [setKey, h0, ih h]

theorem keysOf_append {α : Type} (m m' : List (String × α)) :
    keysOf (m ++ m') = keysOf m ++ keysOf m' := by
  simp [keysOf]

theorem dictUpdate_lookup {α : Type} (e d : List (String × α)) (k : String)
    (h : (keysOf e).Nodup) :
    lookupKey (dictUpdate d e) k =
      match lookupKey e k with
      | some v => some v
      | none => lookupKey d k := by
  induction e generalizing d with
  | nil => simp [dictUpdate, lookupKey]
  | cons kv rest ih =>
    obtain ⟨k0, v0⟩ := kv
    simp only [keysOf, List.map_cons, List.nodup_cons] at h
    have hstep : dictUpdate d ((k0, v0) :: rest) = dictUpdate (setKey d k0 v0) rest := rfl
    rw [hstep, ih _ h.2]
    by_cases h0 : k0 = k
    · subst h0
      have hnone : lookupKey rest k0 = none :=
        lookupKey_eq_none_of_not_mem _ _ (by simpa [keysOf] using h.1)
      simp [lookupKey, hnone, lookupKey_setKey]
    · simp only [lookupKey, if_neg h0]
      cases hr : lookupKey rest k with
      | some v => simp
      | none => simp [lookupKey_setKey, h0]

/-! ## Lemmas about paths -/

theorem pyAbs_isAbs (cwd p : String) (h : isAbsStr cwd = true) :
    isAbsStr (pyAbs cwd p) = true := by
  unfold pyAbs
  by_cases h1 : isAbsStr p = true
  · simp [h1]
  · rw [if_neg h1]
    by_cases h2 : p = "" ∨ p = "."
    · simp [h2, h]
    · rw [if_neg h2]
      unfold isAbsStr at h ⊢
      rw [decide_eq_true_eq] at h ⊢
      rcases hc : cwd.data with _ | ⟨c, t⟩
      · rw [hc] at h; simp at h
      · rw [hc] at h
        simp only [List.head?] at h
        simp only [String.data_append, hc]
        injection h with h
        simp [h]

theorem pyAbs_of_isAbs (cwd p : String) (h : isAbsStr p = true) : pyAbs cwd p = p := by
  unfold pyAbs
  simp [h]

theorem pyAbs_idem (cwd p : String) (h : isAbsStr cwd = true) :
    pyAbs cwd (pyAbs cwd p) = pyAbs cwd p :=
  pyAbs_of_isAbs _ _ (pyAbs_isAbs _ _ h)

/-! ## Lemmas about the synthesized ledger keys -/

theorem ledger_key_data (s a : String) :
    (ledger_key s a).data = s.data ++ ('_' :: '_' :: '_' :: a.data) := by
  have h3 : ("___" : String).data = ['_', '_', '_'] := rfl
  simp [ledger_key, String.data_append, h3]

theorem ledger_key_inj_arg (s a1 a2 : String)
    (h : ledger_key s a1 = ledger_key s a2) : a1 = a2 := by
  have hd := congrArg String.data h
  rw [ledger_key_data, ledger_key_data] at hd
  have := List.append_cancel_left hd
  injection this with _ this
  injection this with _ this
  injection this with _ this
  exact String.ext this

theorem ledger_key_ne_of_arg_ne (s a1 a2 : String) (h : a1 ≠ a2) :
    ledger_key s a1 ≠ ledger_key s a2 :=
  fun he => h (ledger_key_inj_arg s a1 a2 he)

theorem tail10_of_append (x y u v : List Char) (h : x ++ u = y ++ v)
    (hu : 10 ≤ u.length) (hv : 10 ≤ v.length) :
    u.reverse.take 10 = v.reverse.take 10 := by
  have hr := congrArg List.reverse h
  simp only [List.reverse_append] at hr
  have ht := congrArg (List.take 10) hr
  rw [List.take_append_of_le_length (by simpa using hu),
      List.take_append_of_le_length (by simpa using hv)] at ht
  exact ht

theorem ledger_key_inj (s1 s2 a1 a2 : String)
    (h1 : a1 ∈ arg_keys_) (h2 : a2 ∈ arg_keys_)
    (h : ledger_key s1 a1 = ledger_key s2 a2) : s1 = s2 ∧ a1 = a2 := by
  have hd := congrArg String.data h
  rw [ledger_key_data, ledger_key_data] at hd
  simp only [arg_keys_, List.mem_cons, List.not_mem_nil, or_false] at h1 h2
  rcases h1 with h1 | h1 | h1 <;> rcases h2 with h2 | h2 | h2 <;> subst h1 <;> subst h2
  all_goals first
    | (refine ⟨?_, rfl⟩
       have hh := List.append_inj' hd rfl
       exact String.ext hh.1)
    | (exact absurd (tail10_of_append _ _ _ _ hd (by decide) (by decide)) (by decide))

theorem setKey3_fresh {α : Type} (m : List (String × α)) (k1 k2 k3 : String)
    (v1 v2 v3 : α)
    (h1 : k1 ∉ keysOf m) (h2 : k2 ∉ keysOf m) (h3 : k3 ∉ keysOf m)
    (h12 : k2 ≠ k1) (h13 : k3 ≠ k1) (h23 : k3 ≠ k2) :
    setKey (setKey (setKey m k1 v1) k2 v2) k3 v3 =
      m ++ [(k1, v1), (k2, v2), (k3, v3)] := by
  have hm2 : k2 ∉ keysOf (m ++ [(k1, v1)]) := by
    rw [keysOf_append]
    simp only [List.mem_append, not_or]
    exact ⟨h2, by simp [keysOf, h12]⟩
  have hm3 : k3 ∉ keysOf ((m ++ [(k1, v1)]) ++ [(k2, v2)]) := by
    rw [keysOf_append, keysOf_append]
    simp only [List.mem_append, not_or]
    exact ⟨⟨h3, by simp [keysOf, h13]⟩, by simp [keysOf, h23]⟩
  rw [setKey_of_not_mem _ _ _ h1, setKey_of_not_mem _ _ _ hm2,
      setKey_of_not_mem _ _ _ hm3]
  simp

/-- C2: after a call of the context injector on a node input map that does
not yet contain the three fixed context keys and a ledger that does not
yet contain the three synthesized keys, the input map gains exactly the
three inline-input bindings under the fixed keys (in source order, each
value wrapped in the wic_inline_input marker), and the ledger gains
exactly the three entries keyed by the step name joined to the argument
name with the separator of three underscores, each mapping to the pair of
namespaces extended by the step name and the argument name. -/
theorem c2_context_injection_exact
    (cwd : String) (args : CLArgs) (in_dict_in : List (String × JVal))
    (namespaces : List String) (step_name_i : String)
    (explicit_edge_calls_copy : List (String × (List String × String)))
    (h1 : "root_workflow_yml_path" ∉ keysOf in_dict_in)
    (h2 : "cachedir_path" ∉ keysOf in_dict_in)
    (h3 : "homedir" ∉ keysOf in_dict_in)
    (h4 : ∀ a ∈ arg_keys_, ledger_key step_name_i a ∉ keysOf explicit_edge_calls_copy) :
    (write_absolute_yaml_tags cwd args in_dict_in namespaces step_name_i
        explicit_edge_calls_copy).1 =
      in_dict_in ++
        [("root_workflow_yml_path",
            JVal.obj [("wic_inline_input", .str (pyAbs cwd (pyParent args.yaml)))]),
         ("cachedir_path", JVal.obj [("wic_inline_input", .str (pyAbs cwd args.cachedir))]),
         ("homedir", JVal.obj [("wic_inline_input", .str args.homedir)])] ∧
    (write_absolute_yaml_tags cwd args in_dict_in namespaces step_name_i
        explicit_edge_calls_copy).2 =
      explicit_edge_calls_copy ++
        [(ledger_key step_name_i "root_workflow_yml_path",
            (namespaces ++ [step_name_i], "root_workflow_yml_path")),
         (ledger_key step_name_i "cachedir_path",
            (namespaces ++ [step_name_i], "cachedir_path")),
         (ledger_key step_name_i "homedir",
            (namespaces ++ [step_name_i], "homedir"))] := by
  constructor
  · simp only [write_absolute_yaml_tags]
    exact setKey3_fresh _ _ _ _ _ _ _ h1 h2 h3 (by decide) (by decide) (by decide)
  · simp only [write_absolute_yaml_tags, arg_keys_, List.foldl_cons, List.foldl_nil]
    exact setKey3_fresh _ _ _ _ _ _ _
      (h4 _ (by simp [arg_keys_])) (h4 _ (by simp [arg_keys_])) (h4 _ (by simp [arg_keys_]))
      (ledger_key_ne_of_arg_ne _ _ _ (by decide))
      (ledger_key_ne_of_arg_ne _ _ _ (by decide))
      (ledger_key_ne_of_arg_ne _ _ _ (by decide))

/-- Witness for C2 at a concrete empty input map and empty ledger. -/
theorem c2_context_injection_exact_witness :
    (write_absolute_yaml_tags "/w" ⟨"cache", "wf.yml", "/home/u"⟩ [] ["a"] "s" []).1 =
      [] ++
        [("root_workflow_yml_path",
            JVal.obj [("wic_inline_input", .str (pyAbs "/w" (pyParent "wf.yml")))]),
         ("cachedir_path", JVal.obj [("wic_inline_input", .str (pyAbs "/w" "cache"))]),
         ("homedir", JVal.obj [("wic_inline_input", .str "/home/u")])] ∧
    (write_absolute_yaml_tags "/w" ⟨"cache", "wf.yml", "/home/u"⟩ [] ["a"] "s" []).2 =
      [] ++
        [(ledger_key "s" "root_workflow_yml_path", (["a", "s"], "root_workflow_yml_path")),
         (ledger_key "s" "cachedir_path", (["a", "s"], "cachedir_path")),
         (ledger_key "s" "homedir", (["a", "s"], "homedir"))] :=
  c2_context_injection_exact "/w" ⟨"cache", "wf.yml", "/home/u"⟩ [] ["a"] "s" []
    (by simp [keysOf]) (by simp [keysOf]) (by simp [keysOf])
    (fun a _ => by simp [keysOf])

/-- C8 counterexample: two injections at nodes with different namespace
paths but the same step name synthesize the same three ledger keys, so the
second call overwrites the entries of the first: after the two calls the
ledger holds three entries (not six), the entry under the key joining s
with homedir changed from the pair for namespace path [a] to the pair for
namespace path [b], and the sets of keys added by the two calls coincide
rather than being disjoint. -/
theorem c8_counterexample :
    lookupKey (write_absolute_yaml_tags "/w" ⟨"c", "wf.yml", "/h"⟩ [] ["a"] "s" []).2
        "s___homedir" = some (["a", "s"], "homedir") ∧
    lookupKey (write_absolute_yaml_tags "/w" ⟨"c", "wf.yml", "/h"⟩ [] ["b"] "s"
          (write_absolute_yaml_tags "/w" ⟨"c", "wf.yml", "/h"⟩ [] ["a"] "s" []).2).2
        "s___homedir" = some (["b", "s"], "homedir") ∧
    (write_absolute_yaml_tags "/w" ⟨"c", "wf.yml", "/h"⟩ [] ["b"] "s"
        (write_absolute_yaml_tags "/w" ⟨"c", "wf.yml", "/h"⟩ [] ["a"] "s" []).2).2.length = 3 ∧
    injected_ledger_keys "s" = injected_ledger_keys "s" ∧
    (["a"] : List String) ≠ ["b"] := by
  refine ⟨by decide, by decide, by decide, rfl, by decide⟩

/-- C8 amended: ledger keys are qualified by the step name and the
argument name (the namespace path does not occur in them), so injections
performed at two nodes with distinct step names produce disjoint sets of
ledger keys; injections at nodes sharing a step name produce identical key
sets and overwrite each other regardless of their namespace paths. -/
theorem c8_amended_step_qualified_keys (s1 s2 : String) (h : s1 ≠ s2) :
    ∀ k ∈ injected_ledger_keys s1, k ∉ injected_ledger_keys s2 := by
  intro k hk1 hk2
  simp only [injected_ledger_keys, List.mem_map] at hk1 hk2
  obtain ⟨a1, ha1, hk1⟩ := hk1
  obtain ⟨a2, ha2, hk2⟩ := hk2
  exact h (ledger_key_inj s1 s2 a1 a2 ha1 ha2 (hk1.trans hk2.symm)).1

/-- Witness for the amended C8 at two concrete distinct step names. -/
theorem c8_amended_step_qualified_keys_witness :
    ("s___homedir" : String) ∉ injected_ledger_keys "t" :=
  c8_amended_step_qualified_keys "s" "t" (by decide) "s___homedir" (by decide)

/-! ## Injectivity analysis of the flat-naming join -/

theorem append_singleton_ne_nil {α : Type} (l : List α) (t : α) : l ++ [t] ≠ [] := by
  cases l <;> simp

theorem joinSep_cons (x : List Char) (ys : List (List Char)) (h : ys ≠ []) :
    joinSep (x :: ys) = x ++ sep3 ++ joinSep ys := by
  cases ys with
  | nil => exact absurd rfl h
  | cons y ys => rfl

theorem joinSep_length_ge (l : List (List Char)) (t : List Char) :
    t.length ≤ (joinSep (l ++ [t])).length := by
  induction l with
  | nil => simp [joinSep]
  | cons x l ih =>
    rw [List.cons_append, joinSep_cons _ _ (append_singleton_ne_nil _ _)]
    simp only [List.length_append, sep3, List.length_cons, List.length_nil]
    omega

theorem run3_of_three (l : List Char) (k : Nat)
    (e0 : l[k]? = some '_') (e1 : l[k+1]? = some '_') (e2 : l[k+2]? = some '_') :
    hasRun3 l = true := by
  induction l generalizing k with
  | nil => simp at e0
  | cons c rest ih =>
    cases k with
    | zero =>
      simp only [List.getElem?_cons_zero, Option.some.injEq] at e0
      subst e0
      simp only [List.getElem?_cons_succ] at e1 e2
      rcases hr : rest with _ | ⟨d, rest1⟩
      · rw [hr] at e1; simp at e1
      · rw [hr] at e1 e2
        simp only [List.getElem?_cons_zero, Option.some.injEq] at e1
        subst e1
        simp only [List.getElem?_cons_succ, List.getElem?_cons_zero] at e2
        rcases hr1 : rest1 with _ | ⟨e, rest2⟩
        · rw [hr1] at e2; simp at e2
        · rw [hr1] at e2
          simp only [List.getElem?_cons_zero, Option.some.injEq] at e2
          subst e2
          simp [hasRun3, startsRun3]
    | succ k =>
      simp only [List.getElem?_cons_succ] at e0 e1 e2
      have := ih k e0 e1 e2
      simp [hasRun3, this]

theorem sep3_getElem (k : Nat) (hk : k < 3) : sep3[k]? = some '_' := by
  match k, hk with
  | 0, _ => rfl
  | 1, _ => rfl
  | 2, _ => rfl

theorem offCase (a b r1 r2 : List Char)
    (h : a ++ (sep3 ++ r1) = b ++ (sep3 ++ r2))
    (hlt : a.length < b.length)
    (hb3 : hasRun3 b = false) (hbl : b.getLast? ≠ some '_') : False := by
  have ew : ∀ k, k < 3 → (a ++ (sep3 ++ r1))[a.length + k]? = some '_' := by
    intro k hk
    rw [List.getElem?_append_right (Nat.le_add_right _ _)]
    rw [Nat.add_sub_cancel_left]
    rw [List.getElem?_append_left (by simp [sep3]; omega)]
    exact sep3_getElem k hk
  by_cases hb : a.length + 3 ≤ b.length
  · have f : ∀ k, k < 3 → b[a.length + k]? = some '_' := by
      intro k hk
      have h1 := ew k hk
      rw [h] at h1
      rw [List.getElem?_append_left (by omega)] at h1
      exact h1
    have hr := run3_of_three b a.length (by simpa using f 0 (by omega))
      (f 1 (by omega)) (f 2 (by omega))
    rw [hb3] at hr
    exact Bool.false_ne_true hr
  · have h1 : (a ++ (sep3 ++ r1))[b.length - 1]? = some '_' := by
      have hw := ew (b.length - 1 - a.length) (by omega)
      have heq : a.length + (b.length - 1 - a.length) = b.length - 1 := by omega
      rw [heq] at hw
      exact hw
    rw [h] at h1
    rw [List.getElem?_append_left (by omega)] at h1
    apply hbl
    rw [List.getLast?_eq_getElem?]
    exact h1

theorem joinSep_inj : ∀ (ns1 ns2 : List (List Char)) (t : List Char),
    (∀ x ∈ ns1, hasRun3 x = false ∧ x.getLast? ≠ some '_') →
    (∀ x ∈ ns2, hasRun3 x = false ∧ x.getLast? ≠ some '_') →
    joinSep (ns1 ++ [t]) = joinSep (ns2 ++ [t]) → ns1 = ns2 := by
  intro ns1
  induction ns1 with
  | nil =>
    intro ns2 t _ hok2 h
    cases ns2 with
    | nil => rfl
    | cons b bs =>
      exfalso
      rw [List.nil_append, List.cons_append,
        joinSep_cons _ _ (append_singleton_ne_nil _ _)] at h
      have hl := congrArg List.length h
      have hge := joinSep_length_ge bs t
      simp only [joinSep, List.length_append, sep3, List.length_cons,
        List.length_nil] at hl
      omega
  | cons a as ih =>
    intro ns2 t hok1 hok2 h
    cases ns2 with
    | nil =>
      exfalso
      rw [List.nil_append, List.cons_append,
        joinSep_cons _ _ (append_singleton_ne_nil _ _)] at h
      have hl := congrArg List.length h
      have hge := joinSep_length_ge as t
      simp only [joinSep, List.length_append, sep3, List.length_cons,
        List.length_nil] at hl
      omega
    | cons b bs =>
      rw [List.cons_append, List.cons_append,
        joinSep_cons _ _ (append_singleton_ne_nil _ _),
        joinSep_cons _ _ (append_singleton_ne_nil _ _),
        List.append_assoc, List.append_assoc] at h
      rcases Nat.lt_trichotomy a.length b.length with hlt | heq | hgt
      · exact absurd h
          (fun h => offCase a b _ _ h hlt (hok2 b (by simp)).1 (hok2 b (by simp)).2)
      · obtain ⟨hab, hrest⟩ := List.append_inj h heq
        have hJ := List.append_cancel_left hrest
        have has := ih bs t (fun x hx => hok1 x (by simp [hx]))
          (fun x hx => hok2 x (by simp [hx])) hJ
        rw [hab, has]
      · exact absurd h.symm
          (fun h => offCase b a _ _ h hgt (hok1 a (by simp)).1 (hok1 a (by simp)).2)

theorem pyJoin_data (xs : List String) :
    (pyJoin "___" xs).data = joinSep (xs.map String.data) := by
  induction xs with
  | nil => rfl
  | cons x xs ih =>
    cases xs with
    | nil => rfl
    | cons y ys =>
      show (x ++ "___" ++ pyJoin "___" (y :: ys)).data = _
      rw [String.data_append, String.data_append, ih]
      rw [List.map_cons, List.map_cons]
      rfl

/-- C7 counterexample: the namespace paths [a, b] and [a___b] are
distinct, yet under flat naming both the compiled-document filename and
the inputs filename coincide for the shared stem s, because a namespace
component may itself contain the three-underscore separator. -/
theorem c7_counterexample :
    flat_filename_cwl ["a", "b"] "s" = flat_filename_cwl ["a___b"] "s" ∧
    flat_filename_yml ["a", "b"] "s" = flat_filename_yml ["a___b"] "s" ∧
    (["a", "b"] : List String) ≠ ["a___b"] := by
  refine ⟨by decide, by decide, by decide⟩

/-- C7 amended: under the flat-naming policy, two nodes with identical
stem names but different namespace paths receive distinct compiled-file
and inputs-file names, provided every namespace component is
separator-safe: it contains no run of three consecutive underscores and
does not end in an underscore.  (The counterexample above shows the claim
fails without such a proviso.) -/
theorem c7_amended_flat_names_distinct (ns1 ns2 : List String) (stem : String)
    (hok1 : ∀ x ∈ ns1, okComp x) (hok2 : ∀ x ∈ ns2, okComp x)
    (hne : ns1 ≠ ns2) :
    flat_filename_cwl ns1 stem ≠ flat_filename_cwl ns2 stem ∧
    flat_filename_yml ns1 stem ≠ flat_filename_yml ns2 stem := by
  have hmapinj : ∀ a b : String, a.data = b.data → a = b := fun _ _ h => String.ext h
  constructor
  · intro h
    apply hne
    have hd := congrArg String.data h
    simp only [flat_filename_cwl] at hd
    rw [pyJoin_data, pyJoin_data, List.map_append, List.map_append] at hd
    simp only [List.map_cons, List.map_nil] at hd
    have hinj := joinSep_inj (ns1.map String.data) (ns2.map String.data) _
      (fun x hx => by
        obtain ⟨y, hy, rfl⟩ := List.mem_map.mp hx
        exact hok1 y hy)
      (fun x hx => by
        obtain ⟨y, hy, rfl⟩ := List.mem_map.mp hx
        exact hok2 y hy)
      hd
    exact List.map_injective_iff.mpr (fun a b hab => String.ext hab) hinj
  · intro h
    apply hne
    have hd := congrArg String.data h
    simp only [flat_filename_yml] at hd
    rw [pyJoin_data, pyJoin_data, List.map_append, List.map_append] at hd
    simp only [List.map_cons, List.map_nil] at hd
    have hinj := joinSep_inj (ns1.map String.data) (ns2.map String.data) _
      (fun x hx => by
        obtain ⟨y, hy, rfl⟩ := List.mem_map.mp hx
        exact hok1 y hy)
      (fun x hx => by
        obtain ⟨y, hy, rfl⟩ := List.mem_map.mp hx
        exact hok2 y hy)
      hd
    exact List.map_injective_iff.mpr (fun a b hab => String.ext hab) hinj

/-- Witness for the amended C7 at two concrete one-component namespace
paths with a shared stem. -/
theorem c7_amended_flat_names_distinct_witness :
    flat_filename_cwl ["a"] "s" ≠ flat_filename_cwl ["b"] "s" ∧
    flat_filename_yml ["a"] "s" ≠ flat_filename_yml ["b"] "s" :=
  c7_amended_flat_names_distinct ["a"] ["b"] "s"
    (by intro x hx; simp at hx; subst hx; exact ⟨by decide, by decide⟩)
    (by intro x hx; simp at hx; subst hx; exact ⟨by decide, by decide⟩)
    (by decide)

/-! ## The no-alias serialization discipline -/

theorem serSeq_cons_eq (f : Nat → List Nat → List YTok × List Nat) (r : Nat)
    (rs : List Nat) (vis : List Nat) :
    serSeq f (r :: rs) vis =
      ((f r vis).1 ++ (serSeq f rs (f r vis).2).1, (serSeq f rs (f r vis).2).2) := rfl

theorem serMap_cons_eq (f : Nat → List Nat → List YTok × List Nat) (k : String)
    (r : Nat) (rs : List (String × Nat)) (vis : List Nat) :
    serMap f ((k, r) :: rs) vis =
      (YTok.keyT k :: ((f r vis).1 ++ (serMap f rs (f r vis).2).1),
        (serMap f rs (f r vis).2).2) := rfl

theorem serSeq_spec (f : Nat → List Nat → List YTok × List Nat)
    (hf : ∀ r vis, (f r vis).2 = vis ∧ noMarks (f r vis).1 = true) :
    ∀ (rs : List Nat) (vis : List Nat),
      (serSeq f rs vis).2 = vis ∧ noMarks (serSeq f rs vis).1 = true := by
  intro rs
  induction rs with
  | nil => intro vis; exact ⟨rfl, rfl⟩
  | cons r rs ih =>
    intro vis
    rw [serSeq_cons_eq]
    have h1 := hf r vis
    have h2 := ih ((f r vis).2)
    refine ⟨by rw [h2.1, h1.1], ?_⟩
    simp only [noMarks, List.all_append] at h1 h2 ⊢
    rw [h1.2, h2.2]
    rfl

theorem serMap_spec (f : Nat → List Nat → List YTok × List Nat)
    (hf : ∀ r vis, (f r vis).2 = vis ∧ noMarks (f r vis).1 = true) :
    ∀ (rs : List (String × Nat)) (vis : List Nat),
      (serMap f rs vis).2 = vis ∧ noMarks (serMap f rs vis).1 = true := by
  intro rs
  induction rs with
  | nil => intro vis; exact ⟨rfl, rfl⟩
  | cons kr rs ih =>
    obtain ⟨k, r⟩ := kr
    intro vis
    rw [serMap_cons_eq]
    have h1 := hf r vis
    have h2 := ih ((f r vis).2)
    refine ⟨by rw [h2.1, h1.1], ?_⟩
    simp only [noMarks, List.all_cons, List.all_append] at h1 h2 ⊢
    rw [h1.2, h2.2]
    rfl

theorem serNodeF_true_none (heap : List YNode) (fuel r : Nat) (vis : List Nat)
    (hh : heap[r]? = none) :
    serNodeF NoAliasDumper_ignore_aliases heap (fuel+1) r vis = ([], vis) := by
  simp [serNodeF, hh]

theorem serNodeF_true_scalar (heap : List YNode) (fuel r : Nat) (vis : List Nat)
    (v : SVal) (hh : heap[r]? = some (.scalar v)) :
    serNodeF NoAliasDumper_ignore_aliases heap (fuel+1) r vis =
      ([YTok.scalarT v], vis) := by
  simp [serNodeF, hh, NoAliasDumper_ignore_aliases]

theorem serNodeF_true_seq (heap : List YNode) (fuel r : Nat) (vis : List Nat)
    (items : List Nat) (hh : heap[r]? = some (.seq items)) :
    serNodeF NoAliasDumper_ignore_aliases heap (fuel+1) r vis =
      (YTok.seqStart ::
          (serSeq (serNodeF NoAliasDumper_ignore_aliases heap fuel) items vis).1
          ++ [YTok.seqEnd],
        (serSeq (serNodeF NoAliasDumper_ignore_aliases heap fuel) items vis).2) := by
  simp [serNodeF, hh, NoAliasDumper_ignore_aliases]

theorem serNodeF_true_ymap (heap : List YNode) (fuel r : Nat) (vis : List Nat)
    (entries : List (String × Nat)) (hh : heap[r]? = some (.ymap entries)) :
    serNodeF NoAliasDumper_ignore_aliases heap (fuel+1) r vis =
      (YTok.mapStart ::
          (serMap (serNodeF NoAliasDumper_ignore_aliases heap fuel) entries vis).1
          ++ [YTok.mapEnd],
        (serMap (serNodeF NoAliasDumper_ignore_aliases heap fuel) entries vis).2) := by
  simp [serNodeF, hh, NoAliasDumper_ignore_aliases]

theorem serNodeF_true_spec (heap : List YNode) : ∀ (fuel r : Nat) (vis : List Nat),
    (serNodeF NoAliasDumper_ignore_aliases heap fuel r vis).2 = vis ∧
    noMarks (serNodeF NoAliasDumper_ignore_aliases heap fuel r vis).1 = true := by
  intro fuel
  induction fuel with
  | zero => intro r vis; exact ⟨rfl, rfl⟩
  | succ fuel ih =>
    intro r vis
    cases hh : heap[r]? with
    | none => rw [serNodeF_true_none _ _ _ _ hh]; exact ⟨rfl, rfl⟩
    | some n =>
      cases n with
      | scalar v => rw [serNodeF_true_scalar _ _ _ _ _ hh]; exact ⟨rfl, rfl⟩
      | seq items =>
        rw [serNodeF_true_seq _ _ _ _ _ hh]
        have h := serSeq_spec _ ih items vis
        refine ⟨h.1, ?_⟩
        simp only [noMarks, List.all_cons, List.all_append] at h ⊢
        rw [h.2]
        rfl
      | ymap entries =>
        rw [serNodeF_true_ymap _ _ _ _ _ hh]
        have h := serMap_spec _ ih entries vis
        refine ⟨h.1, ?_⟩
        simp only [noMarks, List.all_cons, List.all_append] at h ⊢
        rw [h.2]
        rfl

theorem dumpDocTokens_noMarks (heap : List YNode) (r : Nat) :
    noMarks (dumpDocTokens heap r) = true :=
  (serNodeF_true_spec heap (heap.length + 1) r []).2

theorem dumpTopMapTokens_noMarks (heap : List YNode) (entries : List (String × Nat)) :
    noMarks (dumpTopMapTokens heap entries) = true := by
  have h := serMap_spec _ (serNodeF_true_spec heap (heap.length + 1)) entries []
  simp only [dumpTopMapTokens, noMarks, List.all_cons, List.all_append] at h ⊢
  rw [h.2]
  rfl

theorem writeAuxF_noMarks (heap : List YNode) (rel : Bool)
    (inputs : List (String × Nat)) : ∀ (fuel : Nat) (t : RoseTree) (path : List String),
    ∀ w ∈ writeAuxF heap rel inputs fuel t path, noMarks w.2.body = true := by
  intro fuel
  induction fuel with
  | zero => intro t path w hw; simp [writeAuxF] at hw
  | succ fuel ih =>
    intro t path w hw
    cases t with
    | node d subs =>
      simp only [writeAuxF] at hw
      rw [List.mem_append] at hw
      rcases hw with hw | hw
      · simp only [nodeWrites, List.mem_cons, List.not_mem_nil, or_false] at hw
        rcases hw with hw | hw <;> subst hw
        · exact dumpDocTokens_noMarks heap d.compiled_cwl
        · exact dumpTopMapTokens_noMarks heap _
      · rw [List.mem_flatten] at hw
        obtain ⟨l, hl, hwl⟩ := hw
        rw [List.mem_map] at hl
        obtain ⟨sub, hsub, rfl⟩ := hl
        exact ih sub _ w hwl

/-- C1: every file the tree writer produces, both the compiled-document
files and the inputs files, is serialized through NoAliasDumper and hence
contains no structural-sharing marker (no YAML anchor and no YAML alias);
moreover a value referenced from two different points of the document is
emitted as two independent full copies of its serialization, one at each
occurrence. -/
theorem c1_no_alias_markers :
    (∀ (heap : List YNode) (rose_tree : RoseTree) (path : List String)
        (relative_run_path : Bool) (inputs : List (String × Nat)),
      ∀ w ∈ _write_to_disk heap rose_tree path relative_run_path inputs,
        noMarks w.2.body = true) ∧
    (∀ (heap : List YNode) (fuel r0 r : Nat) (vis : List Nat),
      heap[r0]? = some (.seq [r, r]) →
      (serNodeF NoAliasDumper_ignore_aliases heap (fuel+1) r0 vis).1 =
        YTok.seqStart ::
          ((serNodeF NoAliasDumper_ignore_aliases heap fuel r vis).1 ++
            ((serNodeF NoAliasDumper_ignore_aliases heap fuel r vis).1 ++ [YTok.seqEnd]))) := by
  constructor
  · intro heap rose_tree path rel inputs w hw
    exact writeAuxF_noMarks heap rel inputs (treeFuel rose_tree) rose_tree path w hw
  · intro heap fuel r0 r vis hh
    rw [serNodeF_true_seq _ _ _ _ _ hh]
    rw [serSeq_cons_eq, serSeq_cons_eq]
    rw [(serNodeF_true_spec heap fuel r vis).1]
    simp [serSeq]

/-- Witness for C1: a concrete heap whose document is a two-element
sequence referencing the same scalar twice; the written file has no
sharing markers and the serialization duplicates the scalar in full. -/
theorem c1_no_alias_markers_witness :
    noMarks (⟨[shebang_line, auto_gen_header],
        dumpDocTokens [YNode.seq [1, 1], .scalar (.s "x")] 0⟩ : FileContent).body = true ∧
    (serNodeF NoAliasDumper_ignore_aliases [YNode.seq [1, 1], .scalar (.s "x")] 2 0 []).1 =
      YTok.seqStart ::
        ((serNodeF NoAliasDumper_ignore_aliases [YNode.seq [1, 1], .scalar (.s "x")] 1 1 []).1 ++
          ((serNodeF NoAliasDumper_ignore_aliases [YNode.seq [1, 1], .scalar (.s "x")] 1 1 []).1
            ++ [YTok.seqEnd])) := by
  constructor
  · exact c1_no_alias_markers.1 [YNode.seq [1, 1], .scalar (.s "x")]
      (.node ⟨[], "A", 0, []⟩ []) ["out"] true []
      (["out", "A.cwl"],
        ⟨[shebang_line, auto_gen_header],
          dumpDocTokens [YNode.seq [1, 1], .scalar (.s "x")] 0⟩)
      (by decide)
  · exact c1_no_alias_markers.2 [YNode.seq [1, 1], .scalar (.s "x")] 1 0 1 [] (by decide)

/-- C3 (code bug): at the claim's own input — the two-level tree with
root A (default inputs mapping x to 1) and one child B, the
nested-directory policy, the out directory, and the supplementary-inputs
document mapping y to the integer 2 — the public writer raises TypeError
inside the wrapper's relative-location rewrite loop (the membership test
of the string location in the integer 2 is not defined) and writes no
file at all, instead of producing the four files the claim describes.
The loop's own comment says its intent is to rewrite relative locations
of File and Dir values, so crashing on a scalar supplementary input is a
slip; the recursive writer on the same arguments produces exactly the
four claimed files, with the supplementary entry y: 2 overriding and also
passed unchanged into the child's inputs document.  The heap holds the
scalars 1 and 2 and the two compiled documents. -/
theorem c3_two_level_tree_typeerror_code_bug :
    (write_to_disk
        [YNode.scalar (.i 1), .scalar (.i 2), .scalar (.s "compiledA"),
          .scalar (.s "compiledB")]
        (.node ⟨[], "A", 2, [("x", 0)]⟩ [.node ⟨["B"], "B", 3, []⟩ []])
        ["out"] true [("y", 1)] = .error .typeError) ∧
    (rewriteLocVal
        [YNode.scalar (.i 1), .scalar (.i 2), .scalar (.s "compiledA"),
          .scalar (.s "compiledB")] 1 = .error .typeError) ∧
    (_write_to_disk
        [YNode.scalar (.i 1), .scalar (.i 2), .scalar (.s "compiledA"),
          .scalar (.s "compiledB")]
        (.node ⟨[], "A", 2, [("x", 0)]⟩ [.node ⟨["B"], "B", 3, []⟩ []])
        ["out"] true [("y", 1)] =
      [(["out", "A.cwl"],
          ⟨[shebang_line, auto_gen_header], [.scalarT (.s "compiledA")]⟩),
       (["out", "A_inputs.yml"],
          ⟨[auto_gen_header],
            [.mapStart, .keyT "x", .scalarT (.i 1), .keyT "y", .scalarT (.i 2),
              .mapEnd]⟩),
       (["out", "B", "B.cwl"],
          ⟨[shebang_line, auto_gen_header], [.scalarT (.s "compiledB")]⟩),
       (["out", "B", "B_inputs.yml"],
          ⟨[auto_gen_header], [.mapStart, .keyT "y", .scalarT (.i 2), .mapEnd]⟩)]) :=
  ⟨rfl, rfl, rfl⟩

/-! ## Lemmas about the config store -/

theorem absStrList_ok (cwd : String) (hcwd : isAbsStr cwd = true) :
    ∀ (xs ys : List JVal), absStrList cwd xs = .ok ys →
      (∀ y ∈ ys, ∃ s, y = JVal.str s ∧ isAbsStr s = true) ∧
      absStrList cwd ys = .ok ys := by
  intro xs
  induction xs with
  | nil =>
    intro ys h
    injection h with h
    subst h
    exact ⟨by simp, rfl⟩
  | cons x xs ih =>
    intro ys h
    cases x with
    | str s =>
      simp only [absStrList] at h
      cases hr : absStrList cwd xs with
      | error e => rw [hr] at h; cases h
      | ok rs =>
        rw [hr] at h
        injection h with h
        subst h
        obtain ⟨hmem, hidem⟩ := ih rs hr
        constructor
        · intro y hy
          rcases List.mem_cons.mp hy with rfl | hy
          · exact ⟨pyAbs cwd s, rfl, pyAbs_isAbs cwd s hcwd⟩
          · exact hmem y hy
        · simp only [absStrList, hidem]
          rw [pyAbs_of_isAbs cwd _ (pyAbs_isAbs cwd s hcwd)]
    | int n => simp [absStrList] at h
    | bool b => simp [absStrList] at h
    | null => simp [absStrList] at h
    | arr items => simp [absStrList] at h
    | obj entries => simp [absStrList] at h

theorem absEntryList_ok (cwd : String) (hcwd : isAbsStr cwd = true) :
    ∀ (es es' : List (String × JVal)), absEntryList cwd es = .ok es' →
      catAllAbs (.obj es') = true ∧ absEntryList cwd es' = .ok es' := by
  intro es
  induction es with
  | nil =>
    intro es' h
    injection h with h
    subst h
    exact ⟨rfl, rfl⟩
  | cons kv es ih =>
    intro es' h
    obtain ⟨k, v⟩ := kv
    cases v with
    | arr xs =>
      simp only [absEntryList] at h
      cases hx : absStrList cwd xs with
      | error e => rw [hx] at h; cases h
      | ok ys =>
        rw [hx] at h
        cases hr : absEntryList cwd es with
        | error e => rw [hr] at h; cases h
        | ok rs =>
          rw [hr] at h
          injection h with h
          subst h
          obtain ⟨hys, hysidem⟩ := absStrList_ok cwd hcwd xs ys hx
          obtain ⟨hall, hidem⟩ := ih rs hr
          constructor
          · simp only [catAllAbs, List.all_cons] at hall ⊢
            rw [hall, Bool.and_true]
            rw [List.all_eq_true]
            intro y hy
            obtain ⟨s, rfl, hs⟩ := hys y hy
            exact hs
          · simp only [absEntryList, hysidem, hidem]
    | str s => simp [absEntryList] at h
    | int n => simp [absEntryList] at h
    | bool b => simp [absEntryList] at h
    | null => simp [absEntryList] at h
    | obj entries => simp [absEntryList] at h

theorem get_absolute_paths_ok (cwd : String) (v v' : JVal)
    (hcwd : isAbsStr cwd = true) (h : get_absolute_paths cwd v = .ok v') :
    catAllAbs v' = true ∧ get_absolute_paths cwd v' = .ok v' := by
  cases v with
  | obj es =>
    simp only [get_absolute_paths] at h
    cases he : absEntryList cwd es with
    | error e => rw [he] at h; cases h
    | ok es' =>
      rw [he] at h
      injection h with h
      subst h
      obtain ⟨hall, hidem⟩ := absEntryList_ok cwd hcwd es es' he
      exact ⟨hall, by simp only [get_absolute_paths, hidem]⟩
  | str s => simp [get_absolute_paths] at h
  | int n => simp [get_absolute_paths] at h
  | bool b => simp [get_absolute_paths] at h
  | null => simp [get_absolute_paths] at h
  | arr items => simp [get_absolute_paths] at h

theorem process_config_ok_elim (cwd : String) (config cfg : JVal)
    (h : process_config cwd config = .ok cfg) :
    ∃ (es : List (String × JVal)) (v1 v1' v2 v2' : JVal),
      config = .obj es ∧
      lookupKey es "search_paths_cwl" = some v1 ∧
      get_absolute_paths cwd v1 = .ok v1' ∧
      lookupKey (setKey es "search_paths_cwl" v1') "search_paths_wic" = some v2 ∧
      get_absolute_paths cwd v2 = .ok v2' ∧
      cfg = .obj (setKey (setKey es "search_paths_cwl" v1') "search_paths_wic" v2') := by
  cases config with
  | obj es =>
    simp only [process_config] at h
    split at h
    case h_2 => cases h
    rename_i e1 h1
    split at h
    case h_2 => cases h
    rename_i e2 h2
    injection h with h
    simp only [procTag] at h1 h2
    split at h1
    case h_1 => cases h1
    rename_i v1 hl1
    split at h1
    case h_2 => cases h1
    rename_i v1' hg1
    injection h1 with h1
    subst h1
    split at h2
    case h_1 => cases h2
    rename_i v2 hl2
    split at h2
    case h_2 => cases h2
    rename_i v2' hg2
    injection h2 with h2
    subst h2
    exact ⟨es, v1, v1', v2, v2', rfl, hl1, hg1, hl2, hg2, h.symm⟩
  | str s => simp [process_config] at h
  | int n => simp [process_config] at h
  | bool b => simp [process_config] at h
  | null => simp [process_config] at h
  | arr items => simp [process_config] at h

theorem process_config_abs (cwd : String) (config cfg : JVal)
    (hcwd : isAbsStr cwd = true) (h : process_config cwd config = .ok cfg) :
    ∃ entries,
      cfg = .obj entries ∧
      (∃ v1, lookupKey entries "search_paths_cwl" = some v1 ∧ catAllAbs v1 = true) ∧
      (∃ v2, lookupKey entries "search_paths_wic" = some v2 ∧ catAllAbs v2 = true) := by
  obtain ⟨es, v1, v1', v2, v2', rfl, hl1, hg1, hl2, hg2, rfl⟩ :=
    process_config_ok_elim cwd config cfg h
  refine ⟨_, rfl, ⟨v1', ?_, (get_absolute_paths_ok cwd v1 v1' hcwd hg1).1⟩,
    ⟨v2', ?_, (get_absolute_paths_ok cwd v2 v2' hcwd hg2).1⟩⟩
  · rw [lookupKey_setKey]
    rw [if_neg (by decide)]
    rw [lookupKey_setKey]
    rw [if_pos rfl]
  · rw [lookupKey_setKey]
    rw [if_pos rfl]

theorem process_config_idem (cwd : String) (config cfg : JVal)
    (hcwd : isAbsStr cwd = true) (h : process_config cwd config = .ok cfg) :
    process_config cwd cfg = .ok cfg := by
  obtain ⟨es, v1, v1', v2, v2', rfl, hl1, hg1, hl2, hg2, rfl⟩ :=
    process_config_ok_elim cwd config cfg h
  have hi1 := (get_absolute_paths_ok cwd v1 v1' hcwd hg1).2
  have hi2 := (get_absolute_paths_ok cwd v2 v2' hcwd hg2).2
  have hL1 :
      lookupKey (setKey (setKey es "search_paths_cwl" v1') "search_paths_wic" v2')
        "search_paths_cwl" = some v1' := by
    rw [lookupKey_setKey, if_neg (by decide), lookupKey_setKey, if_pos rfl]
  have hL2 :
      lookupKey (setKey (setKey es "search_paths_cwl" v1') "search_paths_wic" v2')
        "search_paths_wic" = some v2' := by
    rw [lookupKey_setKey, if_pos rfl]
  simp only [process_config, procTag, hL1, hi1]
  rw [setKey_self _ _ _ hL1]
  simp only [hL2, hi2]
  rw [setKey_self _ _ _ hL2]

/-- C4 counterexample: with a missing user-specified path distinct from
the default, get_config does print the error line and terminate, but
through sys.exit() with no argument, which gives the process exit status
zero, not a non-zero status; so the non-zero-termination part of the
claim is false at this input. -/
theorem c4_counterexample :
    get_config "/w" JVal.null [] "a" "b" =
      (.exited 0, [], ["Error user specified config file a does not exist"]) ∧
    ∀ status, (get_config "/w" JVal.null [] "a" "b").1 = GCResult.exited status →
      status = 0 := by
  refine ⟨rfl, ?_⟩
  intro status h
  have h' : GCResult.exited 0 = GCResult.exited status := h
  injection h' with h'
  exact h'.symm

/-- C4 amended: whenever the requested config path does not exist on disk
and differs from the default path, get_config prints the human-readable
error line and terminates the process through the exit mechanism with the
default, zero (success-style) status, writing or regenerating no file. -/
theorem c4_amended_missing_user_config_exits (cwd : String) (bundled : JVal)
    (fs : FS) (config_file default_config_file : String)
    (hmiss : lookupKey fs config_file = none)
    (hne : config_file ≠ default_config_file) :
    get_config cwd bundled fs config_file default_config_file =
      (.exited 0, fs,
        ["Error user specified config file " ++ config_file ++ " does not exist"]) := by
  simp only [get_config, hmiss, Option.isSome_none, if_neg hne]
  simp

/-- Witness for the amended C4 at a concrete missing path. -/
theorem c4_amended_missing_user_config_exits_witness :
    get_config "/w" JVal.null [("other", JVal.null)] "a" "b" =
      (.exited 0, [("other", JVal.null)],
        ["Error user specified config file a does not exist"]) :=
  c4_amended_missing_user_config_exits "/w" JVal.null [("other", JVal.null)] "a" "b"
    rfl (by decide)

/-- C5: with the default path missing, the first get_config call
synthesizes the default configuration, writes it to the default path and
returns it (also printing the generation notice); the file then holds
exactly that configuration; and the second call takes the file-exists
branch, performs no write (the filesystem is returned unchanged, nothing
is printed), and returns the configuration loaded from the file, whose
content is unchanged between the two calls. -/
theorem c5_default_config_idempotent (cwd : String) (bundled : JVal) (fs : FS)
    (default_config_file : String) (gc : JVal)
    (hmiss : lookupKey fs default_config_file = none)
    (hcwd : isAbsStr cwd = true)
    (hgc : get_default_config cwd bundled = .ok gc) :
    get_config cwd bundled fs default_config_file default_config_file =
      (.ok gc, setKey fs default_config_file gc,
        ["default config file : " ++ default_config_file ++ " generated"]) ∧
    lookupKey (setKey fs default_config_file gc) default_config_file = some gc ∧
    get_config cwd bundled (setKey fs default_config_file gc)
        default_config_file default_config_file =
      (.ok gc, setKey fs default_config_file gc, []) := by
  have hfile : lookupKey (setKey fs default_config_file gc) default_config_file =
      some gc := by
    rw [lookupKey_setKey, if_pos rfl]
  refine ⟨?_, hfile, ?_⟩
  · simp only [get_config, hmiss, Option.isSome_none, hgc, write_config_to_disk]
    simp
  · have hidem : process_config cwd gc = .ok gc :=
      process_config_idem cwd bundled gc hcwd hgc
    simp only [get_config, hfile, Option.isSome_some, Bool.true_eq_false,
      if_neg, read_config_from_disk, hidem]
    simp

/-- Witness for C5 at a concrete bundled default config with one relative
path, which the first call absolutizes and persists. -/
theorem c5_default_config_idempotent_witness :
    get_config "/w"
        (.obj [("search_paths_cwl", .obj [("g", .arr [.str "p"])]),
          ("search_paths_wic", .obj [])]) [] "d" "d" =
      (.ok (.obj [("search_paths_cwl", .obj [("g", .arr [.str "/w/p"])]),
          ("search_paths_wic", .obj [])]),
        setKey [] "d" (.obj [("search_paths_cwl", .obj [("g", .arr [.str "/w/p"])]),
          ("search_paths_wic", .obj [])]),
        ["default config file : " ++ "d" ++ " generated"]) ∧
    lookupKey (setKey [] "d"
        (JVal.obj [("search_paths_cwl", .obj [("g", .arr [.str "/w/p"])]),
          ("search_paths_wic", .obj [])])) "d" =
      some (.obj [("search_paths_cwl", .obj [("g", .arr [.str "/w/p"])]),
          ("search_paths_wic", .obj [])]) ∧
    get_config "/w"
        (.obj [("search_paths_cwl", .obj [("g", .arr [.str "p"])]),
          ("search_paths_wic", .obj [])])
        (setKey [] "d" (.obj [("search_paths_cwl", .obj [("g", .arr [.str "/w/p"])]),
          ("search_paths_wic", .obj [])])) "d" "d" =
      (.ok (.obj [("search_paths_cwl", .obj [("g", .arr [.str "/w/p"])]),
          ("search_paths_wic", .obj [])]),
        setKey [] "d" (.obj [("search_paths_cwl", .obj [("g", .arr [.str "/w/p"])]),
          ("search_paths_wic", .obj [])]), []) :=
  c5_default_config_idempotent "/w"
    (.obj [("search_paths_cwl", .obj [("g", .arr [.str "p"])]),
      ("search_paths_wic", .obj [])]) [] "d"
    (.obj [("search_paths_cwl", .obj [("g", .arr [.str "/w/p"])]),
      ("search_paths_wic", .obj [])])
    rfl (by decide) rfl

/-- C6 counterexample: a config file with the two recognized categories
plus a third path-valued category other_paths survives loading, but the
third category's relative path rel is returned untouched: the returned
object contains a category whose path string is not absolute, refuting
the claim for every category in the object. -/
theorem c6_counterexample :
    (get_config "/w" JVal.null
        [("cfg", .obj [("search_paths_cwl", .obj []), ("search_paths_wic", .obj []),
          ("other_paths", .obj [("ns", .arr [.str "rel"])])])] "cfg" "dflt").1 =
      GCResult.ok (.obj [("search_paths_cwl", .obj []), ("search_paths_wic", .obj []),
        ("other_paths", .obj [("ns", .arr [.str "rel"])])]) ∧
    lookupKey [("search_paths_cwl", JVal.obj []), ("search_paths_wic", JVal.obj []),
        ("other_paths", JVal.obj [("ns", .arr [.str "rel"])])] "other_paths" =
      some (.obj [("ns", .arr [.str "rel"])]) ∧
    catAllAbs (.obj [("ns", JVal.arr [.str "rel"])]) = false ∧
    isAbsStr "rel" = false :=
  ⟨rfl, rfl, rfl, rfl⟩

/-- C6 amended: every configuration object returned by get_config has
absolute paths in the two recognized categories search_paths_cwl and
search_paths_wic (regardless of whether the on-disk values were relative
or absolute); categories outside this fixed list are returned untouched,
as the counterexample shows. -/
theorem c6_amended_recognized_categories_absolute (cwd : String) (bundled : JVal)
    (fs : FS) (config_file default_config_file : String) (cfg : JVal) (fs' : FS)
    (out : List String)
    (hcwd : isAbsStr cwd = true)
    (h : get_config cwd bundled fs config_file default_config_file =
      (.ok cfg, fs', out)) :
    ∃ entries,
      cfg = .obj entries ∧
      (∃ v1, lookupKey entries "search_paths_cwl" = some v1 ∧ catAllAbs v1 = true) ∧
      (∃ v2, lookupKey entries "search_paths_wic" = some v2 ∧ catAllAbs v2 = true) := by
  rcases hl : lookupKey fs config_file with _ | j
  · by_cases hdef : config_file = default_config_file
    · simp only [get_config, hl, Option.isSome_none, if_pos rfl, if_pos hdef] at h
      cases hg : get_default_config cwd bundled with
      | error e => rw [hg] at h; simp at h
      | ok gc =>
        rw [hg] at h
        injection h with h1 h2
        injection h1 with h1
        subst h1
        exact process_config_abs cwd bundled gc hcwd hg
    · simp only [get_config, hl, Option.isSome_none, if_pos rfl, if_neg hdef] at h
      simp at h
  · simp only [get_config, hl, Option.isSome_some] at h
    rw [if_neg (by simp)] at h
    cases hr : read_config_from_disk cwd fs config_file with
    | error e => rw [hr] at h; simp at h
    | ok c =>
      rw [hr] at h
      injection h with h1 h2
      injection h1 with h1
      subst h1
      simp only [read_config_from_disk, hl] at hr
      exact process_config_abs cwd j c hcwd hr

/-- Witness for the amended C6: a concrete config file with one relative
path in a recognized category; the returned object holds it absolutized. -/
theorem c6_amended_recognized_categories_absolute_witness :
    ∃ entries,
      (JVal.obj [("search_paths_cwl", .obj [("g", .arr [.str "/w/p"])]),
        ("search_paths_wic", .obj [])]) = .obj entries ∧
      (∃ v1, lookupKey entries "search_paths_cwl" = some v1 ∧ catAllAbs v1 = true) ∧
      (∃ v2, lookupKey entries "search_paths_wic" = some v2 ∧ catAllAbs v2 = true) :=
  c6_amended_recognized_categories_absolute "/w" JVal.null
    [("cfg", .obj [("search_paths_cwl", .obj [("g", .arr [.str "p"])]),
      ("search_paths_wic", .obj [])])]
    "cfg" "dflt"
    (.obj [("search_paths_cwl", .obj [("g", .arr [.str "/w/p"])]),
      ("search_paths_wic", .obj [])])
    [("cfg", .obj [("search_paths_cwl", .obj [("g", .arr [.str "p"])]),
      ("search_paths_wic", .obj [])])]
    [] (by decide) rfl

/-- C10: an existing, well-formed JSON config file that lacks the key
search_paths_cwl (or, with the first key present, lacks search_paths_wic)
makes get_config raise an uncaught KeyError naming the missing key,
instead of returning a configuration object or reporting a
user-configuration error and terminating. -/
theorem c10_missing_key_raises_keyerror :
    get_config "/w" JVal.null [("cfg", .obj [("foo", .str "bar")])] "cfg" "dflt" =
      (.raised (.keyError "search_paths_cwl"),
        [("cfg", .obj [("foo", .str "bar")])], []) ∧
    get_config "/w" JVal.null
        [("cfg", .obj [("search_paths_cwl", .obj []), ("foo", .str "bar")])]
        "cfg" "dflt" =
      (.raised (.keyError "search_paths_wic"),
        [("cfg", .obj [("search_paths_cwl", .obj []), ("foo", .str "bar")])], []) :=
  ⟨rfl, rfl⟩

/-! ## Lemmas about the mutation-level path resolver -/

theorem getD_append_left {α : Type} (l e : List α) (j : Nat) (d : α)
    (h : j < l.length) : (l ++ e).getD j d = l.getD j d := by
  simp [List.getD_eq_getElem?_getD, List.getElem?_append_left h]

theorem getD_append_mid {α : Type} (l : List α) (c : α) (e : List α) (d : α) :
    (l ++ (c :: e)).getD l.length d = c := by
  rw [List.getD_eq_getElem?_getD, List.getElem?_append_right (Nat.le_refl _)]
  simp

theorem lookupKey_cons_self {α : Type} (k : String) (v : α) (rest : List (String × α)) :
    lookupKey ((k, v) :: rest) k = some v := by
  simp [lookupKey]

theorem lookupKey_cons_ne {α : Type} (k0 k : String) (v : α) (rest : List (String × α))
    (h : ¬ k0 = k) : lookupKey ((k0, v) :: rest) k = lookupKey rest k := by
  simp [lookupKey, h]

theorem mem_keys_of_lookup {α : Type} (m : List (String × α)) (k : String) (v : α)
    (h : lookupKey m k = some v) : k ∈ keysOf m := by
  induction m with
  | nil => cases h
  | cons kv rest ih =>
    obtain ⟨k0, v0⟩ := kv
    by_cases h0 : k0 = k
    · subst h0; simp [keysOf]
    · simp only [lookupKey, if_neg h0] at h
      simp only [keysOf, List.map_cons, List.mem_cons]
      exact Or.inr (ih h)

theorem lookup_of_mem_keys {α : Type} (m : List (String × α)) (k : String)
    (h : k ∈ keysOf m) : ∃ v, lookupKey m k = some v := by
  induction m with
  | nil => simp [keysOf] at h
  | cons kv rest ih =>
    obtain ⟨k0, v0⟩ := kv
    by_cases h0 : k0 = k
    · exact ⟨v0, by simp [lookupKey, h0]⟩
    · simp only [keysOf, List.map_cons, List.mem_cons] at h
      rcases h with h | h
      · exact absurd h.symm h0
      · obtain ⟨v, hv⟩ := ih (by simpa [keysOf] using h)
        exact ⟨v, by simp [lookupKey, if_neg h0, hv]⟩

theorem lookup_mem {α : Type} (m : List (String × α)) (k : String) (v : α)
    (h : lookupKey m k = some v) : (k, v) ∈ m := by
  induction m with
  | nil => cases h
  | cons kv rest ih =>
    obtain ⟨k0, v0⟩ := kv
    by_cases h0 : k0 = k
    · subst h0
      have hv0 : v0 = v := by simpa [lookupKey] using h
      subst hv0
      simp
    · simp only [lookupKey, if_neg h0] at h
      exact List.mem_cons_of_mem _ (ih h)

theorem keysOf_setKey_mem {α : Type} (m : List (String × α)) (k : String) (v : α)
    (h : k ∈ keysOf m) : keysOf (setKey m k v) = keysOf m := by
  induction m with
  | nil => simp [keysOf] at h
  | cons kv rest ih =>
    obtain ⟨k0, v0⟩ := kv
    by_cases h0 : k0 = k
    · subst h0; simp [setKey, keysOf]
    · simp only [keysOf, List.map_cons, List.mem_cons] at h
      rcases h with h | h
      · exact absurd h.symm h0
      · have hrec := ih (by simpa [keysOf] using h)
        simp only [keysOf, List.map_cons] at hrec ⊢
        simp only [setKey, if_neg h0, List.map_cons]
        rw [hrec]

theorem allocList_lists (st : PState) (c : List String) :
    (allocList st c).1.lists = st.lists ++ [c] := rfl

theorem allocList_dicts (st : PState) (c : List String) :
    (allocList st c).1.dicts = st.dicts := rfl

theorem allocList_ref (st : PState) (c : List String) :
    (allocList st c).2 = st.lists.length := rfl

theorem deepCopyEntries_cons (st : PState) (k0 : String) (r0 : Nat)
    (rest : List (String × Nat)) :
    deepCopyEntries st ((k0, r0) :: rest) =
      ((deepCopyEntries (allocList st (st.lists.getD r0 [])).1 rest).1,
        (k0, (allocList st (st.lists.getD r0 [])).2) ::
          (deepCopyEntries (allocList st (st.lists.getD r0 [])).1 rest).2) := rfl

theorem deepCopyEntries_dicts : ∀ (es : List (String × Nat)) (st : PState),
    (deepCopyEntries st es).1.dicts = st.dicts := by
  intro es
  induction es with
  | nil => intro st; rfl
  | cons kv rest ih =>
    intro st
    obtain ⟨k0, r0⟩ := kv
    rw [deepCopyEntries_cons]
    exact ih _

theorem deepCopyEntries_lists : ∀ (es : List (String × Nat)) (st : PState),
    ∃ ext, (deepCopyEntries st es).1.lists = st.lists ++ ext := by
  intro es
  induction es with
  | nil => intro st; exact ⟨[], by simp [deepCopyEntries]⟩
  | cons kv rest ih =>
    intro st
    obtain ⟨k0, r0⟩ := kv
    rw [deepCopyEntries_cons]
    obtain ⟨ext, hext⟩ := ih (allocList st (st.lists.getD r0 [])).1
    refine ⟨st.lists.getD r0 [] :: ext, ?_⟩
    rw [hext, allocList_lists]
    simp

theorem deepCopyEntries_keys : ∀ (es : List (String × Nat)) (st : PState),
    keysOf (deepCopyEntries st es).2 = keysOf es := by
  intro es
  induction es with
  | nil => intro st; rfl
  | cons kv rest ih =>
    intro st
    obtain ⟨k0, r0⟩ := kv
    rw [deepCopyEntries_cons]
    simp only [keysOf, List.map_cons] at ih ⊢
    rw [ih]

theorem deepCopyEntries_valid : ∀ (es : List (String × Nat)) (st : PState),
    ∀ kr ∈ (deepCopyEntries st es).2, kr.2 < (deepCopyEntries st es).1.lists.length := by
  intro es
  induction es with
  | nil => intro st kr h; cases h
  | cons kv rest ih =>
    intro st kr h
    obtain ⟨k0, r0⟩ := kv
    rw [deepCopyEntries_cons] at h ⊢
    rcases List.mem_cons.mp h with rfl | h
    · obtain ⟨ext, hext⟩ := deepCopyEntries_lists rest (allocList st (st.lists.getD r0 [])).1
      rw [hext, allocList_ref, allocList_lists]
      simp only [List.length_append, List.length_cons, List.length_nil]
      omega
    · exact ih _ kr h

theorem deepCopyEntries_lookup : ∀ (es : List (String × Nat)) (st : PState)
    (k : String) (r : Nat),
    (∀ kr ∈ es, kr.2 < st.lists.length) →
    lookupKey es k = some r →
    ∃ r2, lookupKey (deepCopyEntries st es).2 k = some r2 ∧
      (deepCopyEntries st es).1.lists.getD r2 [] = st.lists.getD r [] := by
  intro es
  induction es with
  | nil => intro st k r _ h; cases h
  | cons kv rest ih =>
    intro st k r hv h
    obtain ⟨k0, r0⟩ := kv
    rw [deepCopyEntries_cons]
    by_cases h0 : k0 = k
    · subst h0
      have hr0 : r0 = r := by simpa [lookupKey] using h
      subst hr0
      refine ⟨(allocList st (st.lists.getD r0 [])).2, lookupKey_cons_self _ _ _, ?_⟩
      obtain ⟨ext, hext⟩ :=
        deepCopyEntries_lists rest (allocList st (st.lists.getD r0 [])).1
      rw [hext, allocList_ref, allocList_lists, List.append_assoc]
      exact getD_append_mid _ _ _ _
    · simp only [lookupKey, if_neg h0] at h
      have hv' : ∀ kr ∈ rest, kr.2 < (allocList st (st.lists.getD r0 [])).1.lists.length := by
        intro kr hkr
        rw [allocList_lists]
        simp only [List.length_append, List.length_cons, List.length_nil]
        have := hv kr (List.mem_cons_of_mem _ hkr)
        omega
      obtain ⟨r2, hl, hc⟩ := ih (allocList st (st.lists.getD r0 [])).1 k r hv' h
      refine ⟨r2, ?_, ?_⟩
      · rw [lookupKey_cons_ne _ _ _ _ h0]
        exact hl
      · rw [hc, allocList_lists]
        exact getD_append_left _ _ _ _ (hv (k, r) (List.mem_cons_of_mem _ (lookup_mem _ _ _ h)))

theorem absLoopStep_eq (cwd : String) (d' : Nat) (s : PState) (ns : String) :
    absLoopStep cwd d' s ns =
      { dicts := s.dicts.set d' (setKey (s.dicts.getD d' []) ns s.lists.length),
        lists := s.lists ++
          [(s.lists.getD ((lookupKey (s.dicts.getD d' []) ns).getD 0) []).map
            (pyAbs cwd)] } := rfl

theorem absLoop_spec (cwd : String) (d' : Nat) :
    ∀ (ks : List String) (s : PState),
    d' < s.dicts.length →
    ks.Nodup →
    (∀ k ∈ ks, ∃ r, lookupKey (s.dicts.getD d' []) k = some r ∧ r < s.lists.length) →
    ((ks.foldl (absLoopStep cwd d') s).dicts.length = s.dicts.length ∧
      (∀ i, i ≠ d' → (ks.foldl (absLoopStep cwd d') s).dicts[i]? = s.dicts[i]?) ∧
      (∃ ext, (ks.foldl (absLoopStep cwd d') s).lists = s.lists ++ ext) ∧
      keysOf ((ks.foldl (absLoopStep cwd d') s).dicts.getD d' []) =
        keysOf (s.dicts.getD d' []) ∧
      (∀ k, k ∉ ks →
        lookupKey ((ks.foldl (absLoopStep cwd d') s).dicts.getD d' []) k =
          lookupKey (s.dicts.getD d' []) k) ∧
      (∀ k ∈ ks, ∃ r r2,
        lookupKey (s.dicts.getD d' []) k = some r ∧
        lookupKey ((ks.foldl (absLoopStep cwd d') s).dicts.getD d' []) k = some r2 ∧
        (ks.foldl (absLoopStep cwd d') s).lists.getD r2 [] =
          (s.lists.getD r []).map (pyAbs cwd))) := by
  intro ks
  induction ks with
  | nil =>
    intro s _ _ _
    exact ⟨rfl, fun _ _ => rfl, ⟨[], by simp⟩, rfl, fun _ _ => rfl, by simp⟩
  | cons k0 ks ih =>
    intro s hd hnd hks
    obtain ⟨r0, hr0, hr0len⟩ := hks k0 (by simp)
    have hnd' : ks.Nodup := (List.nodup_cons.mp hnd).2
    have hk0 : k0 ∉ ks := (List.nodup_cons.mp hnd).1
    -- the state after the first iteration
    have hstep := absLoopStep_eq cwd d' s k0
    set s1 := absLoopStep cwd d' s k0 with hs1
    have hs1d : s1.dicts = s.dicts.set d' (setKey (s.dicts.getD d' []) k0 s.lists.length) := by
      rw [hstep]
    have hs1l : s1.lists = s.lists ++ [(s.lists.getD r0 []).map (pyAbs cwd)] := by
      rw [hstep, hr0]
      rfl
    have hs1len : s1.dicts.length = s.dicts.length := by
      rw [hs1d, List.length_set]
    have hs1entries : s1.dicts.getD d' [] = setKey (s.dicts.getD d' []) k0 s.lists.length := by
      rw [hs1d, List.getD_eq_getElem?_getD, List.getElem?_set_self (by omega)]
      rfl
    have hs1frame : ∀ i, i ≠ d' → s1.dicts[i]? = s.dicts[i]? := by
      intro i hi
      rw [hs1d, List.getElem?_set_ne (fun h => hi h.symm)]
    have hmem0 : k0 ∈ keysOf (s.dicts.getD d' []) := mem_keys_of_lookup _ _ _ hr0
    have hkeys1 : keysOf (s1.dicts.getD d' []) = keysOf (s.dicts.getD d' []) := by
      rw [hs1entries, keysOf_setKey_mem _ _ _ hmem0]
    have hlook1 : ∀ k, k ≠ k0 →
        lookupKey (s1.dicts.getD d' []) k = lookupKey (s.dicts.getD d' []) k := by
      intro k hk
      rw [hs1entries, lookupKey_setKey, if_neg (fun h => hk h.symm)]
    have hlook0 : lookupKey (s1.dicts.getD d' []) k0 = some s.lists.length := by
      rw [hs1entries, lookupKey_setKey, if_pos rfl]
    have hks' : ∀ k ∈ ks, ∃ r, lookupKey (s1.dicts.getD d' []) k = some r ∧
        r < s1.lists.length := by
      intro k hk
      obtain ⟨r, hr, hrl⟩ := hks k (List.mem_cons_of_mem _ hk)
      refine ⟨r, ?_, ?_⟩
      · rw [hlook1 k (fun he => hk0 (he ▸ hk)), hr]
      · rw [hs1l]
        simp only [List.length_append, List.length_cons, List.length_nil]
        omega
    obtain ⟨ihlen, ihframe, ⟨ext, ihext⟩, ihkeys, ihlook, ihabs⟩ :=
      ih s1 (by omega) hnd' hks'
    rw [List.foldl_cons]
    refine ⟨by rw [ihlen, hs1len], ?_, ?_, ?_, ?_, ?_⟩
    · intro i hi
      rw [ihframe i hi, hs1frame i hi]
    · refine ⟨(s.lists.getD r0 []).map (pyAbs cwd) :: ext, ?_⟩
      rw [ihext, hs1l]
      simp
    · rw [ihkeys, hkeys1]
    · intro k hk
      have hk1 : k ∉ ks := fun h => hk (List.mem_cons_of_mem _ h)
      have hkne : k ≠ k0 := fun h => hk (h ▸ List.mem_cons_self _ _)
      rw [ihlook k hk1, hlook1 k hkne]
    · intro k hk
      rcases List.mem_cons.mp hk with rfl | hk
      · refine ⟨r0, s.lists.length, hr0, ?_, ?_⟩
        · rw [ihlook k hk0, hlook0]
        · rw [ihext, hs1l]
          rw [List.append_assoc, List.singleton_append]
          rw [getD_append_mid]
      · obtain ⟨r, r2, hra, hrb, hrc⟩ := ihabs k hk
        obtain ⟨rS, hrS, hrSl⟩ := hks k (List.mem_cons_of_mem _ hk)
        have hkne : k ≠ k0 := fun he => hk0 (he ▸ hk)
        rw [hlook1 k hkne, hrS] at hra
        injection hra with hra
        subst hra
        refine ⟨rS, r2, hrS, hrb, ?_⟩
        rw [hrc, hs1l, getD_append_left _ _ _ _ hrSl]

theorem deepcopyDict_eq (st : PState) (d : Nat) :
    deepcopyDict st d =
      ({ dicts := (deepCopyEntries st (st.dicts.getD d [])).1.dicts ++
            [(deepCopyEntries st (st.dicts.getD d [])).2],
         lists := (deepCopyEntries st (st.dicts.getD d [])).1.lists },
        (deepCopyEntries st (st.dicts.getD d [])).1.dicts.length) := rfl

theorem gaps_eq (cwd : String) (st : PState) (d : Nat) :
    get_absolute_paths_state cwd st d =
      ((keysOf (((deepcopyDict st d).1).dicts.getD ((deepcopyDict st d).2) [])).foldl
          (absLoopStep cwd ((deepcopyDict st d).2)) ((deepcopyDict st d).1),
        (deepcopyDict st d).2) := rfl

/-- C9: the mutation-level path resolver never touches its argument: every
dict cell and every list cell that existed before the call is unchanged
afterwards; the returned dict is a freshly allocated object; it has the
same keys in the same order as the argument; and each key is bound to a
new list holding exactly the absolutized original paths, with no other
normalization applied (pyAbs leaves absolute paths untouched and only
prefixes the working directory to relative ones). -/
theorem c9_get_absolute_paths_pure (cwd : String) (st : PState) (d : Nat)
    (hnodup : (keysOf (st.dicts.getD d [])).Nodup)
    (hvalid : ∀ kr ∈ st.dicts.getD d [], kr.2 < st.lists.length) :
    (∀ i, i < st.dicts.length →
      ((get_absolute_paths_state cwd st d).1).dicts[i]? = st.dicts[i]?) ∧
    (∀ j, j < st.lists.length →
      ((get_absolute_paths_state cwd st d).1).lists[j]? = st.lists[j]?) ∧
    (get_absolute_paths_state cwd st d).2 = st.dicts.length ∧
    keysOf (((get_absolute_paths_state cwd st d).1).dicts.getD
        ((get_absolute_paths_state cwd st d).2) []) =
      keysOf (st.dicts.getD d []) ∧
    (∀ k r, lookupKey (st.dicts.getD d []) k = some r →
      ∃ r2, lookupKey (((get_absolute_paths_state cwd st d).1).dicts.getD
          ((get_absolute_paths_state cwd st d).2) []) k = some r2 ∧
        ((get_absolute_paths_state cwd st d).1).lists.getD r2 [] =
          (st.lists.getD r []).map (pyAbs cwd)) := by
  obtain ⟨ext0, hext0⟩ := deepCopyEntries_lists (st.dicts.getD d []) st
  have hdicts0 := deepCopyEntries_dicts (st.dicts.getD d []) st
  have hkeys0 := deepCopyEntries_keys (st.dicts.getD d []) st
  have hd2 : (deepcopyDict st d).2 = st.dicts.length := by
    rw [deepcopyDict_eq, hdicts0]
  have hst1d : ((deepcopyDict st d).1).dicts =
      st.dicts ++ [(deepCopyEntries st (st.dicts.getD d [])).2] := by
    rw [deepcopyDict_eq, hdicts0]
  have hst1l : ((deepcopyDict st d).1).lists = st.lists ++ ext0 := by
    rw [deepcopyDict_eq, hext0]
  have hst1e : ((deepcopyDict st d).1).dicts.getD ((deepcopyDict st d).2) [] =
      (deepCopyEntries st (st.dicts.getD d [])).2 := by
    rw [deepcopyDict_eq, List.getD_eq_getElem?_getD,
      List.getElem?_append_right (Nat.le_refl _)]
    simp
  have hks : keysOf (((deepcopyDict st d).1).dicts.getD ((deepcopyDict st d).2) []) =
      keysOf (st.dicts.getD d []) := by
    rw [hst1e, hkeys0]
  have hdlt : (deepcopyDict st d).2 < ((deepcopyDict st d).1).dicts.length := by
    rw [hd2, hst1d]
    simp
  have hpre : ∀ k ∈ keysOf (((deepcopyDict st d).1).dicts.getD ((deepcopyDict st d).2) []),
      ∃ r, lookupKey (((deepcopyDict st d).1).dicts.getD ((deepcopyDict st d).2) []) k =
          some r ∧ r < ((deepcopyDict st d).1).lists.length := by
    intro k hk
    rw [hst1e] at hk ⊢
    obtain ⟨r, hr⟩ := lookup_of_mem_keys _ _ hk
    refine ⟨r, hr, ?_⟩
    have hmem := lookup_mem _ _ _ hr
    have := deepCopyEntries_valid (st.dicts.getD d []) st (k, r) hmem
    rw [deepcopyDict_eq]
    exact this
  obtain ⟨llen, lframe, ⟨ext1, lext⟩, lkeys, llook, labs⟩ :=
    absLoop_spec cwd ((deepcopyDict st d).2)
      (keysOf (((deepcopyDict st d).1).dicts.getD ((deepcopyDict st d).2) []))
      ((deepcopyDict st d).1) hdlt (hks ▸ hnodup) hpre
  rw [gaps_eq]
  refine ⟨?_, ?_, hd2, ?_, ?_⟩
  · intro i hi
    rw [lframe i (by omega)]
    rw [hst1d, List.getElem?_append_left hi]
  · intro j hj
    rw [lext, hst1l]
    rw [List.getElem?_append_left (by simp; omega),
      List.getElem?_append_left hj]
  · rw [lkeys, hks]
  · intro k r hkr
    obtain ⟨r2c, hl2, hc2⟩ :=
      deepCopyEntries_lookup (st.dicts.getD d []) st k r hvalid hkr
    have hkmem : k ∈ keysOf (((deepcopyDict st d).1).dicts.getD ((deepcopyDict st d).2) []) := by
      rw [hst1e]
      exact mem_keys_of_lookup _ _ _ hl2
    obtain ⟨rA, r2, hrA, hr2, habs⟩ := labs k hkmem
    rw [hst1e, hl2] at hrA
    injection hrA with hrA
    subst hrA
    refine ⟨r2, hr2, ?_⟩
    rw [habs]
    have hfix : ((deepcopyDict st d).1).lists.getD r2c [] = st.lists.getD r [] := by
      rw [deepcopyDict_eq]
      exact hc2
    rw [hfix]

/-- Witness for C9 at a concrete one-key store holding one relative and
one absolute path. -/
theorem c9_get_absolute_paths_pure_witness :
    (∀ i, i < (PState.mk [[("ns", 0)]] [["rel", "/a"]]).dicts.length →
      ((get_absolute_paths_state "/w" (PState.mk [[("ns", 0)]] [["rel", "/a"]]) 0).1).dicts[i]? =
        (PState.mk [[("ns", 0)]] [["rel", "/a"]]).dicts[i]?) ∧
    (∀ j, j < (PState.mk [[("ns", 0)]] [["rel", "/a"]]).lists.length →
      ((get_absolute_paths_state "/w" (PState.mk [[("ns", 0)]] [["rel", "/a"]]) 0).1).lists[j]? =
        (PState.mk [[("ns", 0)]] [["rel", "/a"]]).lists[j]?) ∧
    (get_absolute_paths_state "/w" (PState.mk [[("ns", 0)]] [["rel", "/a"]]) 0).2 =
      (PState.mk [[("ns", 0)]] [["rel", "/a"]]).dicts.length ∧
    keysOf (((get_absolute_paths_state "/w" (PState.mk [[("ns", 0)]] [["rel", "/a"]]) 0).1).dicts.getD
        ((get_absolute_paths_state "/w" (PState.mk [[("ns", 0)]] [["rel", "/a"]]) 0).2) []) =
      keysOf ((PState.mk [[("ns", 0)]] [["rel", "/a"]]).dicts.getD 0 []) ∧
    (∀ k r, lookupKey ((PState.mk [[("ns", 0)]] [["rel", "/a"]]).dicts.getD 0 []) k = some r →
      ∃ r2, lookupKey (((get_absolute_paths_state "/w" (PState.mk [[("ns", 0)]] [["rel", "/a"]]) 0).1).dicts.getD
          ((get_absolute_paths_state "/w" (PState.mk [[("ns", 0)]] [["rel", "/a"]]) 0).2) []) k = some r2 ∧
        ((get_absolute_paths_state "/w" (PState.mk [[("ns", 0)]] [["rel", "/a"]]) 0).1).lists.getD r2 [] =
          (((PState.mk [[("ns", 0)]] [["rel", "/a"]]) : PState).lists.getD r []).map (pyAbs "/w")) :=
  c9_get_absolute_paths_pure "/w" (PState.mk [[("ns", 0)]] [["rel", "/a"]]) 0
    (by decide) (by decide)
